import Mathlib

set_option maxRecDepth 100000

/-!
Verification of the tmdb-proxy caching reverse proxy (`src/tmdbProxy.js`).

The development shallowly embeds the cache store, the cache-key builder
(including its SHA-256 credential fingerprint), the api_key query scrub,
the upstream fetch/store step, the error paths, and the single-flight
(request-coalescing) registry as executable Lean definitions, and proves
the specified properties about them.

Conventions:
* JavaScript `Map` objects are modelled as association lists
  (`List (κ × α)`) with `Map`-faithful operations: `set` updates in place
  or appends, `delete` removes the (unique) binding, iteration order is
  insertion order.
* Timestamps (`Date.now()`) are `Nat` milliseconds.
* A response payload (`response.data`) is represented by its JSON
  serialization as a `String`; `Buffer.byteLength(JSON.stringify(data))`
  is the UTF-8 byte size of that string.
* Optional/falsy header values are `Option String`, where JavaScript
  truthiness of a string means `some v` with `v ≠ ""`.
-/

namespace TmdbProxy

/-! ### JavaScript `Map` as an association list -/

/-- `Map.prototype.get` (first binding wins; bindings are unique in a `Map`). -/
def mapGet {κ α : Type} [DecidableEq κ] : List (κ × α) → κ → Option α
  | [], _ => none
  | (k', v) :: rest, k => if k' = k then some v else mapGet rest k

/-- `Map.prototype.set`: replace the existing binding in place, else append. -/
def mapSet {κ α : Type} [DecidableEq κ] : List (κ × α) → κ → α → List (κ × α)
  | [], k, v => [(k, v)]
  | (k', v') :: rest, k, v =>
    if k' = k then (k, v) :: rest else (k', v') :: mapSet rest k v

/-- `Map.prototype.delete`: remove the (unique) binding for the key. -/
def mapDelete {κ α : Type} [DecidableEq κ] : List (κ × α) → κ → List (κ × α)
  | [], _ => []
  | (k', v') :: rest, k =>
    if k' = k then rest else (k', v') :: mapDelete rest k

/-- A well-formed `Map` has pairwise-distinct keys. -/
def nodupKeys {κ α : Type} (m : List (κ × α)) : Prop := (m.map Prod.fst).Nodup

instance {κ α : Type} [DecidableEq κ] (m : List (κ × α)) : Decidable (nodupKeys m) := by
  unfold nodupKeys; infer_instance

/-! ### Cache store (`cache` map in `createTmdbProxyHandler`) -/

/-- A cache entry as stored by
`cache.set(cacheKey, { data: response.data, expiry: Date.now() + cacheDurationMs })`. -/
structure CacheEntry where
  data : String
  expiry : Nat
deriving DecidableEq

/-- The `cache` map: cache key to entry, in `Map` insertion order. -/
abbrev CacheMap := List (String × CacheEntry)

/-- The comparator `(a, b) => a[1].expiry - b[1].expiry` of
`checkCacheSize` as a Boolean order (ascending by expiry). -/
def expiryLe (a b : String × CacheEntry) : Bool := a.2.expiry ≤ b.2.expiry

/-- `checkCacheSize()` from `src/tmdbProxy.js` lines 231–241:

```
if (cache.size <= maxCacheSize) return;
const entries = Array.from(cache.entries());
entries.sort((a, b) => a[1].expiry - b[1].expiry);
const deleteCount = cache.size - maxCacheSize;
entries.slice(0, deleteCount).forEach(([key]) => cache.delete(key));
```

`Array.prototype.sort` is stable and the comparator orders ascending by
expiry, modelled by the stable `List.mergeSort` with `expiryLe`. -/
def checkCacheSize (maxCacheSize : Nat) (cache : CacheMap) : CacheMap :=
  if cache.length ≤ maxCacheSize then cache
  else
    ((cache.mergeSort expiryLe).take (cache.length - maxCacheSize)).foldl
      (fun c kv => mapDelete c kv.1) cache

/-- The store step of `fetchFromUpstream` (lines 352–353):
`checkCacheSize(); cache.set(cacheKey, { data, expiry: Date.now() + cacheDurationMs })`. -/
def cachePut (maxCacheSize : Nat) (cache : CacheMap) (key : String) (entry : CacheEntry) :
    CacheMap :=
  mapSet (checkCacheSize maxCacheSize cache) key entry

/-- The cache-hit section of `proxyApi` (lines 298–307):

```
if (cacheable && cache.has(cacheKey)) {
    const cachedData = cache.get(cacheKey);
    if (Date.now() < cachedData.expiry) {
        ...
        return sendJson(res, 200, cachedData.data);
    }
    cache.delete(cacheKey);
}
```

Returns the possibly-mutated cache and, on a hit, the `(status, body)`
response sent by `sendJson(res, 200, cachedData.data)`. -/
def cacheHitStep (cacheable : Bool) (cache : CacheMap) (cacheKey : String) (now : Nat) :
    CacheMap × Option (Nat × String) :=
  if cacheable then
    match mapGet cache cacheKey with
    | some cachedData =>
      if now < cachedData.expiry then (cache, some (200, cachedData.data))
      else (mapDelete cache cacheKey, none)
    | none => (cache, none)
  else (cache, none)

/-! ### Upstream fetch result handling (`fetchFromUpstream`, lines 309–363) -/

/-- The upstream response as seen after `await axios.request(axiosConfig)`
with `validateStatus: () => true` (every status is accepted as a valid
response, never an error). -/
structure UpstreamResponse where
  status : Nat
  headers : List (String × String)
  data : String
deriving DecidableEq

/-- The `shared` object built by `fetchFromUpstream` (restricted to the
fields the properties are about: status, headers, body, and the cache
disposition tag). -/
structure FetchShared where
  status : Nat
  headers : List (String × String)
  data : String
  cache_result : String
deriving DecidableEq

/-- Handler configuration (positive integers parsed from the environment). -/
structure ProxyConfig where
  cacheDurationMs : Nat
  maxCacheSize : Nat
  maxCacheBodyBytes : Nat

/-- `Buffer.byteLength(JSON.stringify(response.data))`, with the payload
represented by its JSON serialization. -/
def serializedSize (data : String) : Nat := data.utf8ByteSize

/-- The response-handling tail of `fetchFromUpstream` (lines 329–362):
builds `shared`, and for a cacheable 200 response within the body-size
bound runs `checkCacheSize()` and `cache.set(...)`, tagging the
disposition `store` / `skip_size` / `skip_status` / `bypass`. -/
def fetchFromUpstreamStore (cfg : ProxyConfig) (cacheable : Bool) (cacheKey : String)
    (response : UpstreamResponse) (now : Nat) (cache : CacheMap) : CacheMap × FetchShared :=
  let shared : FetchShared :=
    { status := response.status
      headers := response.headers
      data := response.data
      cache_result := if cacheable then "skip_status" else "bypass" }
  if response.status = 200 ∧ cacheable then
    if serializedSize response.data ≤ cfg.maxCacheBodyBytes then
      (cachePut cfg.maxCacheSize cache cacheKey
        { data := response.data, expiry := now + cfg.cacheDurationMs },
       { shared with cache_result := "store" })
    else (cache, { shared with cache_result := "skip_size" })
  else (cache, shared)

/-- The reply for a buffered API request, `sendJson(res, shared.status,
shared.data)` (lines 387, 411, 439): upstream status and body forwarded
as-is. -/
def apiResponse (shared : FetchShared) : Nat × String := (shared.status, shared.data)

/-! ### Error paths -/

/-- The JSON error body sent by `sendJson`. -/
structure ErrorBody where
  error : String
  details : String
deriving DecidableEq

/-- The image-proxy connection-error handler (lines 277–282):
`sendJson(res, 502, { error: 'Bad Gateway', details: error.message })`. -/
def imageUpstreamErrorResponse (errorMessage : String) : Nat × ErrorBody :=
  (502, { error := "Bad Gateway", details := errorMessage })

/-- The status chosen by the handler-level catch (lines 507–515):
`const status = error.response?.status || 500`. An axios transport error
(DNS/TLS/connect/reset) carries no `response`, i.e. `none`; JavaScript
`||` also replaces a present-but-zero status. -/
def handlerErrorStatus (errorResponseStatus : Option Nat) : Nat :=
  match errorResponseStatus with
  | some s => if s = 0 then 500 else s
  | none => 500

/-! ### SHA-256 (`crypto.createHash('sha256')`)

A concrete embedding of FIPS 180-4 SHA-256 over byte lists, used by
`hashHeader`. 32-bit machine words are `Nat` reduced modulo `2^32`. -/

/-- Truncate to a 32-bit word. -/
def w32 (x : Nat) : Nat := x % 4294967296

/-- 32-bit right rotation (for `0 < n < 32` and `x < 2^32`). -/
def rotr32 (n x : Nat) : Nat := w32 ((x >>> n) ||| (x <<< (32 - n)))

/-- Bitwise complement on 32-bit words. -/
def not32 (x : Nat) : Nat := 4294967295 ^^^ x

def ch32 (x y z : Nat) : Nat := (x &&& y) ^^^ (not32 x &&& z)

def maj32 (x y z : Nat) : Nat := (x &&& y) ^^^ (x &&& z) ^^^ (y &&& z)

def bigSigma0 (x : Nat) : Nat := rotr32 2 x ^^^ rotr32 13 x ^^^ rotr32 22 x

def bigSigma1 (x : Nat) : Nat := rotr32 6 x ^^^ rotr32 11 x ^^^ rotr32 25 x

def smallSigma0 (x : Nat) : Nat := rotr32 7 x ^^^ rotr32 18 x ^^^ (x >>> 3)

def smallSigma1 (x : Nat) : Nat := rotr32 17 x ^^^ rotr32 19 x ^^^ (x >>> 10)

/-- The 64 SHA-256 round constants (FIPS 180-4 §4.2.2: the first 32 bits of
the fractional parts of the cube roots of the first 64 primes), written in
decimal. -/
def sha256K : List Nat :=
  [1116352408, 1899447441, 3049323471, 3921009573, 961987163, 1508970993,
   2453635748, 2870763221, 3624381080, 310598401, 607225278, 1426881987,
   1925078388, 2162078206, 2614888103, 3248222580, 3835390401, 4022224774,
   264347078, 604807628, 770255983, 1249150122, 1555081692, 1996064986,
   2554220882, 2821834349, 2952996808, 3210313671, 3336571891, 3584528711,
   113926993, 338241895, 666307205, 773529912, 1294757372, 1396182291,
   1695183700, 1986661051, 2177026350, 2456956037, 2730485921, 2820302411,
   3259730800, 3345764771, 3516065817, 3600352804, 4094571909, 275423344,
   430227734, 506948616, 659060556, 883997877, 958139571, 1322822218,
   1537002063, 1747873779, 1955562222, 2024104815, 2227730452, 2361852424,
   2428436474, 2756734187, 3204031479, 3329325298]

/-- The initial SHA-256 hash state (FIPS 180-4 §5.3.3), in decimal. -/
def sha256InitH : List Nat :=
  [1779033703, 3144134277, 1013904242, 2773480762,
   1359893119, 2600822924, 528734635, 1541459225]

/-- Big-endian byte serialization of `v` in `n` bytes. -/
def natToBytesBE (n v : Nat) : List Nat :=
  (List.range n).map (fun i => (v >>> (8 * (n - 1 - i))) % 256)

/-- SHA-256 message padding: append `0x80`, zero bytes up to 56 mod 64,
then the bit length as a 64-bit big-endian integer. -/
def sha256Pad (msg : List Nat) : List Nat :=
  let zeroCount := (119 - msg.length % 64) % 64
  msg ++ 0x80 :: List.replicate zeroCount 0 ++ natToBytesBE 8 (msg.length * 8)

/-- Big-endian packing of bytes into 32-bit words. -/
def bytesToWordsBE (bytes : List Nat) : List Nat :=
  (List.range (bytes.length / 4)).map (fun i =>
    bytes.getD (4 * i) 0 * 16777216 + bytes.getD (4 * i + 1) 0 * 65536 +
    bytes.getD (4 * i + 2) 0 * 256 + bytes.getD (4 * i + 3) 0)

/-- Split a word list into 16-word blocks. -/
def sha256Blocks (words : List Nat) : List (List Nat) :=
  (List.range (words.length / 16)).map (fun i => (words.drop (16 * i)).take 16)

/-- Message-schedule expansion of one block from 16 to 64 words. -/
def sha256Schedule (block : List Nat) : List Nat :=
  (List.range 48).foldl
    (fun ws _ =>
      let t := ws.length
      ws ++ [w32 (smallSigma1 (ws.getD (t - 2) 0) + ws.getD (t - 7) 0 +
                  smallSigma0 (ws.getD (t - 15) 0) + ws.getD (t - 16) 0)])
    block

/-- One round of the SHA-256 compression function. -/
def sha256Round (ws : List Nat) (st : List Nat) (i : Nat) : List Nat :=
  let a := st.getD 0 0
  let b := st.getD 1 0
  let c := st.getD 2 0
  let d := st.getD 3 0
  let e := st.getD 4 0
  let f := st.getD 5 0
  let g := st.getD 6 0
  let h := st.getD 7 0
  let t1 := w32 (h + bigSigma1 e + ch32 e f g + sha256K.getD i 0 + ws.getD i 0)
  let t2 := w32 (bigSigma0 a + maj32 a b c)
  [w32 (t1 + t2), a, b, c, w32 (d + t1), e, f, g]

/-- One SHA-256 compression: 64 rounds over a block, added to the state. -/
def sha256Compress (hs block : List Nat) : List Nat :=
  let final := (List.range 64).foldl (sha256Round (sha256Schedule block)) hs
  List.zipWith (fun hv v => w32 (hv + v)) hs final

/-- The SHA-256 digest of a byte message, as eight 32-bit words. -/
def sha256Digest (msg : List Nat) : List Nat :=
  (sha256Blocks (bytesToWordsBE (sha256Pad msg))).foldl sha256Compress sha256InitH

/-- The lowercase hexadecimal alphabet used by `digest('hex')`. -/
def hexChars : List Char := "0123456789abcdef".data

def byteToHex (b : Nat) : List Char := [hexChars.getD (b / 16) '0', hexChars.getD (b % 16) '0']

def wordToHex (wd : Nat) : List Char :=
  byteToHex ((wd >>> 24) % 256) ++ byteToHex ((wd >>> 16) % 256) ++
  byteToHex ((wd >>> 8) % 256) ++ byteToHex (wd % 256)

/-- `crypto.createHash('sha256').update(msg).digest('hex')` over bytes. -/
def sha256HexChars (msg : List Nat) : List Char :=
  (sha256Digest msg).foldr (fun wd acc => wordToHex wd ++ acc) []

/-- UTF-8 encoding of one character (the byte view `update(String(value))`
takes of a JavaScript string). -/
def utf8EncodeCharNat (c : Char) : List Nat :=
  let n := c.toNat
  if n < 128 then [n]
  else if n < 2048 then [192 ||| (n >>> 6), 128 ||| (n &&& 63)]
  else if n < 65536 then
    [224 ||| (n >>> 12), 128 ||| ((n >>> 6) &&& 63), 128 ||| (n &&& 63)]
  else
    [240 ||| (n >>> 18), 128 ||| ((n >>> 12) &&& 63), 128 ||| ((n >>> 6) &&& 63),
     128 ||| (n &&& 63)]

/-- UTF-8 bytes of a string. -/
def stringUtf8Bytes (s : String) : List Nat :=
  s.data.foldr (fun c acc => utf8EncodeCharNat c ++ acc) []

/-- `hashHeader` (lines 111–113):
`crypto.createHash('sha256').update(String(value)).digest('hex').slice(0, 16)`. -/
def hashHeader (value : String) : String :=
  ⟨(sha256HexChars (stringUtf8Bytes value)).take 16⟩

/-! ### Cache key building (`buildCacheKey`, lines 115–128) -/

/-- `buildCacheKey(url, headers)`:

```
const parts = [url.pathname + url.search];
if (auth) parts.push(`auth=${hashHeader(auth)}`);
if (acceptLanguage) parts.push(`lang=${acceptLanguage}`);
return parts.join('|');
```

`pathAndSearch` is `url.pathname + url.search`; truthiness of a header is
`some v` with `v ≠ ""`. -/
def buildCacheKey (pathAndSearch : String) (authorization acceptLanguage : Option String) :
    String :=
  let parts := [pathAndSearch]
  let parts :=
    match authorization with
    | some auth => if auth ≠ "" then parts ++ ["auth=" ++ hashHeader auth] else parts
    | none => parts
  let parts :=
    match acceptLanguage with
    | some lang => if lang ≠ "" then parts ++ ["lang=" ++ lang] else parts
    | none => parts
  String.intercalate "|" parts

/-! ### api_key scrubbing (`sanitizeApiKeyValue` / `sanitizeUrlSearchParams`,
lines 78–97) and query serialization -/

/-- JavaScript regex `\s` character class (ECMAScript WhiteSpace ∪
LineTerminator). -/
def isJsWhitespace (c : Char) : Bool :=
  let n := c.toNat
  n = 0x9 || n = 0xA || n = 0xB || n = 0xC || n = 0xD || n = 0x20 || n = 0xA0 ||
  n = 0x1680 || (0x2000 ≤ n && n ≤ 0x200A) || n = 0x2028 || n = 0x2029 ||
  n = 0x202F || n = 0x205F || n = 0x3000 || n = 0xFEFF

/-- Unicode general category `Cf` (format characters), the class matched by
the regex `\p{Cf}` (invisible characters such as zero-width spaces,
directional marks, and the BOM). -/
def isCfChar (c : Char) : Bool :=
  let n := c.toNat
  n = 0xAD || (0x600 ≤ n && n ≤ 0x605) || n = 0x61C || n = 0x6DD || n = 0x70F ||
  (0x890 ≤ n && n ≤ 0x891) || n = 0x8E2 || n = 0x180E || (0x200B ≤ n && n ≤ 0x200F) ||
  (0x202A ≤ n && n ≤ 0x202E) || (0x2060 ≤ n && n ≤ 0x2064) || (0x2066 ≤ n && n ≤ 0x206F) ||
  n = 0xFEFF || (0xFFF9 ≤ n && n ≤ 0xFFFB) || n = 0x110BD || n = 0x110CD ||
  (0x13430 ≤ n && n ≤ 0x1343F) || (0x1BCA0 ≤ n && n ≤ 0x1BCA3) ||
  (0x1D173 ≤ n && n ≤ 0x1D17A) || n = 0xE0001 || (0xE0020 ≤ n && n ≤ 0xE007F)

/-- `sanitizeApiKeyValue` (lines 78–81):
`value.replace(/\p{Cf}/gu, '').replace(/\s+/gu, '')` — drop every format
character, then every whitespace character. -/
def sanitizeApiKeyValue (value : String) : String :=
  ⟨(value.data.filter (fun c => !isCfChar c)).filter (fun c => !isJsWhitespace c)⟩

/-- `URLSearchParams` modelled as its ordered list of name/value pairs. -/
abbrev QueryParams := List (String × String)

/-- `sanitizeUrlSearchParams` (lines 83–97) at the search-params level:

```
const apiKeyValues = url.searchParams.getAll('api_key');
if (apiKeyValues.length === 0) return { api_key_sanitized: false };
const sanitizedValues = apiKeyValues.map(sanitizeApiKeyValue);
const changed = sanitizedValues.some((next, index) => next !== apiKeyValues[index]);
if (!changed) return { api_key_sanitized: false };
url.searchParams.delete('api_key');
for (const value of sanitizedValues) url.searchParams.append('api_key', value);
return { api_key_sanitized: true };
```

`delete` removes every `api_key` pair in place; `append` adds the
sanitized values at the end. Returns the resulting parameter list and the
`api_key_sanitized` flag. -/
def sanitizeUrlSearchParams (params : QueryParams) : QueryParams × Bool :=
  let apiKeyValues := (params.filter (fun p => p.1 = "api_key")).map Prod.snd
  if apiKeyValues.isEmpty then (params, false)
  else
    let sanitizedValues := apiKeyValues.map sanitizeApiKeyValue
    if sanitizedValues = apiKeyValues then (params, false)
    else
      (params.filter (fun p => p.1 ≠ "api_key") ++
        sanitizedValues.map (fun v => ("api_key", v)), true)

/-- The `URLSearchParams` serialization `name=value&name=value` (the
form-urlencoded percent-escaping itself is left to the side; the
injectivity statements below assume separator-free names and values, which
is what percent-escaping guarantees on the wire). -/
def serializeQuery (params : QueryParams) : String :=
  String.intercalate "&" (params.map (fun p => p.1 ++ "=" ++ p.2))

/-- `url.search`: empty, or `?` followed by the serialized parameters. -/
def urlSearch (params : QueryParams) : String :=
  if params.isEmpty then "" else "?" ++ serializeQuery params

/-- The base component of the cache key, `url.pathname + url.search`
(line 119), for a given parameter list. -/
def buildCacheKeyBase (pathname : String) (params : QueryParams) : String :=
  pathname ++ urlSearch params

/-- A name or value free of the `&` and `=` separators (as guaranteed by
the form-urlencoded escaping of `URLSearchParams`). -/
def sepFreePair (p : String × String) : Prop :=
  '&' ∉ p.1.data ∧ '=' ∉ p.1.data ∧ '&' ∉ p.2.data ∧ '=' ∉ p.2.data

instance (p : String × String) : Decidable (sepFreePair p) := by
  unfold sepFreePair; infer_instance

/-! ### Single-flight coordinator (`inflight` map, `proxyApi` lines 365–412)

Node.js executes each request handler on a single thread; the only
suspension points are `await`s. The code section from
`const existing = inflight.get(cacheKey)` through
`inflight.set(cacheKey, promise)` contains no `await` at the `proxyApi`
level (the wrapped fetch suspends only inside `await axios.request`), so
check-register-invoke is atomic with respect to other requests, and
settlement (`try { return await fetchFromUpstream(); } finally {
inflight.delete(cacheKey); }`) removes the registration in the same
synchronous continuation in which the fetch settles, before any waiter
resumes. The interleaving semantics is therefore a sequence of three
atomic events per key: a caller arriving at the coordinator, the fetch
settling (fulfilled or rejected), and a waiter being resumed with the
settled outcome. -/

/-- The settled outcome of `fetchFromUpstream()`: the `shared` value on
fulfillment, or the rejection reason. Waiters of the same promise receive
the same outcome. -/
inductive FetchOutcome where
  | ok (result : FetchShared)
  | err (message : String)
deriving DecidableEq

/-- The shared coordinator state: the `inflight` registry (key → pending
fetch id), a counter of fetch invocations (also the next fresh fetch id),
the log of started fetches (id → key), the settled outcomes, which fetch
each caller awaits, and the outcome each caller has received. -/
structure SfState where
  inflight : List (String × Nat)
  nextFetchId : Nat
  started : List (Nat × String)
  settled : List (Nat × FetchOutcome)
  waiters : List (Nat × Nat)
  delivered : List (Nat × FetchOutcome)
deriving DecidableEq

/-- The handler starts with empty `inflight` and no requests. -/
def sfInit : SfState :=
  { inflight := [], nextFetchId := 0, started := [], settled := [],
    waiters := [], delivered := [] }

/-- Atomic events of the coalescing engine:
* `arrive caller key` — a cache-miss caller reaches the
  `inflight.get(cacheKey)` check (lines 366–399): it either attaches to
  the existing promise or invokes `fetchFromUpstream` and registers the
  new promise;
* `settle fetchId outcome` — the fetch settles and the `finally` clause
  deletes the registration (lines 392–398);
* `deliver caller` — an awaiting caller resumes with the settled outcome
  of its promise (lines 370, 401). -/
inductive SfEvent where
  | arrive (caller : Nat) (key : String)
  | settle (fetchId : Nat) (outcome : FetchOutcome)
  | deliver (caller : Nat)
deriving DecidableEq

/-- One atomic step. `none` means the event is not enabled (settling an
unknown or already-settled fetch, resuming a caller that is not awaiting a
settled fetch). -/
def sfStep (s : SfState) : SfEvent → Option SfState
  | .arrive caller key =>
    match mapGet s.inflight key with
    | some fid => some { s with waiters := s.waiters ++ [(caller, fid)] }
    | none =>
      let fid := s.nextFetchId
      some { s with
        inflight := mapSet s.inflight key fid
        nextFetchId := fid + 1
        started := s.started ++ [(fid, key)]
        waiters := s.waiters ++ [(caller, fid)] }
  | .settle fid outcome =>
    match mapGet s.started fid with
    | none => none
    | some key =>
      if (mapGet s.settled fid).isSome then none
      else some { s with
        settled := mapSet s.settled fid outcome
        inflight := mapDelete s.inflight key }
  | .deliver caller =>
    match mapGet s.waiters caller with
    | none => none
    | some fid =>
      match mapGet s.settled fid with
      | none => none
      | some outcome => some { s with delivered := mapSet s.delivered caller outcome }

/-- Run a sequence of events. -/
def sfRun (s : SfState) : List SfEvent → Option SfState
  | [] => some s
  | e :: rest =>
    match sfStep s e with
    | some s' => sfRun s' rest
    | none => none

/-- A state reachable from the initial handler state. -/
def sfReachable (s : SfState) : Prop :=
  ∃ events, sfRun sfInit events = some s

/-- Fetch `fid` is in progress: invoked but not yet settled. -/
def sfInProgress (s : SfState) (fid : Nat) : Prop :=
  (mapGet s.started fid).isSome ∧ mapGet s.settled fid = none

/-! ### Lemmas about the `Map` model -/

section MapLemmas

variable {κ α : Type} [DecidableEq κ]

theorem mapGet_mapSet_self (m : List (κ × α)) (k : κ) (v : α) :
    mapGet (mapSet m k v) k = some v := by
  induction m with
  | nil => simp [mapSet, mapGet]
  | cons p rest ih =>
    obtain ⟨k1, v1⟩ := p
    by_cases h : k1 = k
    · simp [mapSet, h, mapGet]
    · simpa [mapSet, h, mapGet] using ih

theorem mapGet_mapSet_ne (m : List (κ × α)) (k k' : κ) (v : α) (h : k' ≠ k) :
    mapGet (mapSet m k v) k' = mapGet m k' := by
  induction m with
  | nil => simp [mapSet, mapGet, Ne.symm h]
  | cons p rest ih =>
    obtain ⟨k1, v1⟩ := p
    by_cases hp : k1 = k
    · subst hp
      simp [mapSet, mapGet, Ne.symm h]
    · by_cases hp' : k1 = k'
      · simp [mapSet, hp, mapGet, hp', h]
      · simpa [mapSet, hp, mapGet, hp'] using ih

theorem mapGet_mapDelete_ne (m : List (κ × α)) (k k' : κ) (h : k' ≠ k) :
    mapGet (mapDelete m k) k' = mapGet m k' := by
  induction m with
  | nil => simp [mapDelete]
  | cons p rest ih =>
    obtain ⟨k1, v1⟩ := p
    by_cases hp : k1 = k
    · subst hp
      simp [mapDelete, mapGet, Ne.symm h]
    · by_cases hp' : k1 = k'
      · simp [mapDelete, hp, mapGet, hp', h]
      · simpa [mapDelete, hp, mapGet, hp'] using ih

theorem mapGet_eq_none_of_not_mem (m : List (κ × α)) (k : κ)
    (h : ∀ p ∈ m, p.1 ≠ k) : mapGet m k = none := by
  induction m with
  | nil => rfl
  | cons p rest ih =>
    have hp : p.1 ≠ k := h p (by simp)
    simpa [mapGet, hp] using ih fun q hq => h q (by simp [hq])

theorem mapGet_mem (m : List (κ × α)) (k : κ) (v : α) (h : mapGet m k = some v) :
    (k, v) ∈ m := by
  induction m with
  | nil => simp [mapGet] at h
  | cons p rest ih =>
    obtain ⟨k1, v1⟩ := p
    by_cases hp : k1 = k
    · subst hp
      simp only [mapGet, if_true, eq_self_iff_true, Option.some.injEq] at h
      subst h
      exact List.mem_cons_self _ _
    · simp only [mapGet, hp, if_neg, not_false_iff] at h
      exact List.mem_cons_of_mem _ (ih h)

theorem mapGet_mapDelete_self (m : List (κ × α)) (k : κ) (h : nodupKeys m) :
    mapGet (mapDelete m k) k = none := by
  induction m with
  | nil => rfl
  | cons p rest ih =>
    unfold nodupKeys at h
    obtain ⟨k1, v1⟩ := p
    simp only [List.map_cons, List.nodup_cons] at h
    by_cases hp : k1 = k
    · subst hp
      simp only [mapDelete, if_true, eq_self_iff_true]
      apply mapGet_eq_none_of_not_mem
      intro q hq hqk
      exact h.1 (by rw [← hqk]; exact List.mem_map_of_mem Prod.fst hq)
    · simpa [mapDelete, hp, mapGet] using ih h.2

theorem mem_mapSet (m : List (κ × α)) (k : κ) (v : α) (kv : κ × α)
    (h : kv ∈ mapSet m k v) : kv = (k, v) ∨ kv ∈ m := by
  induction m with
  | nil => simpa [mapSet] using h
  | cons p rest ih =>
    obtain ⟨k1, v1⟩ := p
    by_cases hp : k1 = k
    · subst hp
      simp only [mapSet, if_true, eq_self_iff_true, List.mem_cons] at h
      rcases h with h | h
      · exact Or.inl h
      · exact Or.inr (List.mem_cons_of_mem _ h)
    · simp only [mapSet, hp, if_neg, not_false_iff, List.mem_cons] at h
      rcases h with h | h
      · exact Or.inr (by simp [h])
      · rcases ih h with h' | h'
        · exact Or.inl h'
        · exact Or.inr (List.mem_cons_of_mem _ h')

theorem mapDelete_subset (m : List (κ × α)) (k : κ) (kv : κ × α)
    (h : kv ∈ mapDelete m k) : kv ∈ m := by
  induction m with
  | nil => simp [mapDelete] at h
  | cons p rest ih =>
    obtain ⟨k1, v1⟩ := p
    by_cases hp : k1 = k
    · subst hp
      simp only [mapDelete, if_true, eq_self_iff_true] at h
      exact List.mem_cons_of_mem _ h
    · simp only [mapDelete, hp, if_neg, not_false_iff, List.mem_cons] at h
      rcases h with h | h
      · simp [h]
      · exact List.mem_cons_of_mem _ (ih h)

theorem keys_mapSet (m : List (κ × α)) (k : κ) (v : α) :
    (mapSet m k v).map Prod.fst = if (mapGet m k).isSome then m.map Prod.fst
      else m.map Prod.fst ++ [k] := by
  induction m with
  | nil => simp [mapSet, mapGet]
  | cons p rest ih =>
    by_cases hp : p.1 = k
    · simp [mapSet, hp, mapGet]
    · simp only [mapSet, hp, if_neg, not_false_iff, List.map_cons, mapGet, ih]
      by_cases hs : (mapGet rest k).isSome
      · simp [hs]
      · simp [hs]

theorem mapGet_isSome_of_mem_keys (m : List (κ × α)) (k : κ)
    (h : k ∈ m.map Prod.fst) : (mapGet m k).isSome := by
  induction m with
  | nil => simp at h
  | cons p rest ih =>
    obtain ⟨k1, v1⟩ := p
    by_cases hp : k1 = k
    · simp [mapGet, hp]
    · simp only [List.map_cons, List.mem_cons] at h
      rcases h with h | h
      · exact absurd h.symm hp
      · simpa [mapGet, hp] using ih h

theorem nodupKeys_mapSet (m : List (κ × α)) (k : κ) (v : α) (h : nodupKeys m) :
    nodupKeys (mapSet m k v) := by
  unfold nodupKeys at h ⊢
  rw [keys_mapSet]
  by_cases hs : (mapGet m k).isSome
  · simpa [hs] using h
  · have hk : k ∉ m.map Prod.fst := fun hmem => hs (mapGet_isSome_of_mem_keys m k hmem)
    simp only [hs, if_neg, not_false_iff, Bool.false_eq_true]
    exact List.Nodup.append h (List.nodup_singleton k) (by
      simpa [List.disjoint_singleton] using hk)

theorem nodupKeys_mapDelete (m : List (κ × α)) (k : κ) (h : nodupKeys m) :
    nodupKeys (mapDelete m k) := by
  induction m with
  | nil => exact h
  | cons p rest ih =>
    unfold nodupKeys at h ⊢
    simp only [List.map_cons, List.nodup_cons] at h
    by_cases hp : p.1 = k
    · simpa [mapDelete, hp] using h.2
    · simp only [mapDelete, hp, if_neg, not_false_iff, List.map_cons, List.nodup_cons]
      refine ⟨fun hmem => ?_, ih h.2⟩
      rcases List.mem_map.mp hmem with ⟨q, hq, hqk⟩
      exact h.1 (by rw [← hqk]; exact List.mem_map_of_mem Prod.fst (mapDelete_subset rest k q hq))

theorem mapGet_append_left (m₁ m₂ : List (κ × α)) (k : κ) (v : α)
    (h : mapGet m₁ k = some v) : mapGet (m₁ ++ m₂) k = some v := by
  induction m₁ with
  | nil => simp [mapGet] at h
  | cons p rest ih =>
    by_cases hp : p.1 = k
    · simp only [mapGet, hp, if_pos] at h
      simp [mapGet, hp, h]
    · simp only [mapGet, hp, if_neg, not_false_iff] at h
      simpa [mapGet, hp] using ih h

theorem mapGet_append_right (m₁ m₂ : List (κ × α)) (k : κ)
    (h : mapGet m₁ k = none) : mapGet (m₁ ++ m₂) k = mapGet m₂ k := by
  induction m₁ with
  | nil => rfl
  | cons p rest ih =>
    by_cases hp : p.1 = k
    · simp [mapGet, hp] at h
    · simp only [mapGet, hp, if_neg, not_false_iff] at h
      simpa [mapGet, hp] using ih h

theorem mapGet_eq_some_of_mem (m : List (κ × α)) (k : κ) (v : α)
    (hnodup : nodupKeys m) (hmem : (k, v) ∈ m) : mapGet m k = some v := by
  induction m with
  | nil => simp at hmem
  | cons p rest ih =>
    unfold nodupKeys at hnodup
    simp only [List.map_cons, List.nodup_cons] at hnodup
    rcases List.mem_cons.mp hmem with h | h
    · rw [← h]
      simp [mapGet]
    · by_cases hp : p.1 = k
      · exact absurd (by rw [hp]; exact List.mem_map_of_mem Prod.fst h) hnodup.1
      · simpa [mapGet, hp] using ih hnodup.2 h

theorem mapDelete_eq_filter (m : List (κ × α)) (k : κ) (h : nodupKeys m) :
    mapDelete m k = m.filter (fun p => p.1 ≠ k) := by
  induction m with
  | nil => rfl
  | cons p rest ih =>
    obtain ⟨k1, v1⟩ := p
    unfold nodupKeys at h
    simp only [List.map_cons, List.nodup_cons] at h
    by_cases hp : k1 = k
    · subst hp
      have hrest : rest.filter (fun q => decide (q.1 ≠ k1)) = rest := by
        apply List.filter_eq_self.mpr
        intro q hq
        simp only [decide_eq_true_eq]
        intro hqk
        exact h.1 (hqk ▸ List.mem_map_of_mem Prod.fst hq)
      simpa [mapDelete, List.filter_cons] using hrest.symm
    · simp only [mapDelete, hp, if_neg, not_false_iff, List.filter_cons]
      rw [ih h.2]
      simp [hp]

omit [DecidableEq κ] in
theorem unique_of_nodupKeys (m : List (κ × α)) (a b : κ × α) (h : nodupKeys m)
    (ha : a ∈ m) (hb : b ∈ m) (hab : a.1 = b.1) : a = b := by
  induction m with
  | nil => simp at ha
  | cons p rest ih =>
    unfold nodupKeys at h
    simp only [List.map_cons, List.nodup_cons] at h
    rcases List.mem_cons.mp ha with ha' | ha' <;> rcases List.mem_cons.mp hb with hb' | hb'
    · rw [ha', hb']
    · exact absurd (by rw [← ha', hab]; exact List.mem_map_of_mem Prod.fst hb') h.1
    · exact absurd (by rw [← hb', ← hab]; exact List.mem_map_of_mem Prod.fst ha') h.1
    · exact ih h.2 ha' hb'

end MapLemmas

/-! ### Lemmas about the cache store -/

section CacheLemmas

theorem expiryLe_trans (a b c : String × CacheEntry) :
    expiryLe a b → expiryLe b c → expiryLe a c := by
  simp only [expiryLe, decide_eq_true_eq]
  omega

theorem expiryLe_total (a b : String × CacheEntry) : expiryLe a b || expiryLe b a := by
  simp only [expiryLe, Bool.or_eq_true, decide_eq_true_eq]
  omega

theorem length_mapSet (m : CacheMap) (k : String) (v : CacheEntry) :
    (mapSet m k v).length ≤ m.length + 1 := by
  induction m with
  | nil => simp [mapSet]
  | cons p rest ih =>
    obtain ⟨k1, v1⟩ := p
    by_cases hp : k1 = k
    · simp [mapSet, hp]
    · simpa [mapSet, hp] using ih

theorem foldlDelete_eq_filter (ks : List (String × CacheEntry)) :
    ∀ c : CacheMap, nodupKeys c →
      ks.foldl (fun c kv => mapDelete c kv.1) c =
        c.filter (fun kv => decide (kv.1 ∉ ks.map Prod.fst)) := by
  induction ks with
  | nil => intro c _; simp
  | cons p ks ih =>
    intro c hc
    have hdel : nodupKeys (mapDelete c p.1) := nodupKeys_mapDelete c p.1 hc
    calc (p :: ks).foldl (fun c kv => mapDelete c kv.1) c
        = ks.foldl (fun c kv => mapDelete c kv.1) (mapDelete c p.1) := rfl
      _ = (mapDelete c p.1).filter (fun kv => decide (kv.1 ∉ ks.map Prod.fst)) := ih _ hdel
      _ = (c.filter (fun kv => decide (kv.1 ≠ p.1))).filter
            (fun kv => decide (kv.1 ∉ ks.map Prod.fst)) := by rw [mapDelete_eq_filter c p.1 hc]
      _ = c.filter (fun kv => decide (kv.1 ∉ (p :: ks).map Prod.fst)) := by
          rw [List.filter_filter]
          apply List.filter_congr
          intro kv _
          simp only [List.map_cons, List.mem_cons, not_or, Bool.decide_and]
          exact Bool.and_comm _ _

/-- When the cache is over the limit, `checkCacheSize` keeps exactly the
entries whose key is not among the first `deleteCount` of the
expiry-sorted entry list. -/
theorem checkCacheSize_over (max : Nat) (c : CacheMap) (hc : nodupKeys c)
    (hover : ¬c.length ≤ max) :
    checkCacheSize max c =
      c.filter (fun kv =>
        decide (kv.1 ∉ ((c.mergeSort expiryLe).take (c.length - max)).map Prod.fst)) := by
  unfold checkCacheSize
  rw [if_neg hover]
  exact foldlDelete_eq_filter _ c hc

theorem nodupKeys_mergeSort (c : CacheMap) (hc : nodupKeys c) :
    nodupKeys (c.mergeSort expiryLe) := by
  unfold nodupKeys at hc ⊢
  exact (((c.mergeSort_perm expiryLe)).map Prod.fst).nodup_iff.mpr hc

theorem mem_take_of_key (c : CacheMap) (dc : Nat) (kv : String × CacheEntry)
    (hc : nodupKeys c) (hmem : kv ∈ c)
    (hkey : kv.1 ∈ ((c.mergeSort expiryLe).take dc).map Prod.fst) :
    kv ∈ (c.mergeSort expiryLe).take dc := by
  rcases List.mem_map.mp hkey with ⟨t, ht, htk⟩
  have hsorted := nodupKeys_mergeSort c hc
  have hkv : kv ∈ c.mergeSort expiryLe := (c.mergeSort_perm expiryLe).mem_iff.mpr hmem
  have ht' : t ∈ c.mergeSort expiryLe := List.mem_of_mem_take ht
  have : kv = t := unique_of_nodupKeys _ kv t hsorted hkv ht' htk.symm
  rw [this]
  exact ht

/-- With pairwise-distinct keys, filtering out the keys of the first `n`
entries keeps exactly the entries after position `n`. -/
theorem filter_keys_drop (l : List (String × CacheEntry)) (n : Nat) (h : nodupKeys l) :
    l.filter (fun kv => decide (kv.1 ∉ (l.take n).map Prod.fst)) = l.drop n := by
  set pred := fun kv : String × CacheEntry => decide (kv.1 ∉ (l.take n).map Prod.fst)
    with hpred_def
  have htake : (l.take n).filter pred = [] := by
    apply List.filter_eq_nil_iff.mpr
    intro kv hkv
    simp only [hpred_def, Bool.not_eq_true, decide_eq_true_eq, not_not]
    exact List.mem_map_of_mem Prod.fst hkv
  have hdrop : (l.drop n).filter pred = l.drop n := by
    apply List.filter_eq_self.mpr
    intro kv hkv
    simp only [hpred_def, decide_eq_true_eq]
    intro hin
    have hkeys : ((l.take n).map Prod.fst ++ (l.drop n).map Prod.fst).Nodup := by
      rw [← List.map_append, List.take_append_drop]
      exact h
    exact (List.disjoint_of_nodup_append hkeys) hin (List.mem_map_of_mem Prod.fst hkv)
  calc l.filter pred = (l.take n ++ l.drop n).filter pred := by rw [List.take_append_drop]
    _ = (l.take n).filter pred ++ (l.drop n).filter pred :=
        List.filter_append (l.take n) (l.drop n)
    _ = l.drop n := by rw [htake, hdrop, List.nil_append]

/-- Entries kept by `checkCacheSize` on an over-limit cache are a
permutation of the tail of the expiry-sorted list. -/
theorem checkCacheSize_perm_drop (max : Nat) (c : CacheMap) (hc : nodupKeys c)
    (hover : ¬c.length ≤ max) :
    (checkCacheSize max c).Perm ((c.mergeSort expiryLe).drop (c.length - max)) := by
  rw [checkCacheSize_over max c hc hover]
  have heq := filter_keys_drop (c.mergeSort expiryLe) (c.length - max)
    (nodupKeys_mergeSort c hc)
  have hperm := (c.mergeSort_perm expiryLe).symm.filter
    (fun kv => decide (kv.1 ∉ ((c.mergeSort expiryLe).take (c.length - max)).map Prod.fst))
  exact hperm.trans (List.Perm.of_eq heq)

theorem checkCacheSize_length (max : Nat) (c : CacheMap) (hc : nodupKeys c) :
    (checkCacheSize max c).length ≤ max ∧
      (¬c.length ≤ max → (checkCacheSize max c).length = max) := by
  by_cases h : c.length ≤ max
  · constructor
    · unfold checkCacheSize
      rw [if_pos h]
      exact h
    · intro h'; exact absurd h h'
  · have hlen : (checkCacheSize max c).length =
        ((c.mergeSort expiryLe).drop (c.length - max)).length :=
      (checkCacheSize_perm_drop max c hc h).length_eq
    have : ((c.mergeSort expiryLe).drop (c.length - max)).length = max := by
      rw [List.length_drop, List.length_mergeSort]
      omega
    constructor
    · rw [hlen, this]
    · intro _; rw [hlen, this]

theorem mem_foldlDelete_subset (ks : List (String × CacheEntry)) :
    ∀ (c : CacheMap) (kv : String × CacheEntry),
      kv ∈ ks.foldl (fun c kv => mapDelete c kv.1) c → kv ∈ c := by
  induction ks with
  | nil => intro c kv h; exact h
  | cons q ks ih =>
    intro c kv h
    exact mapDelete_subset c q.1 kv (ih (mapDelete c q.1) kv h)

theorem checkCacheSize_subset (max : Nat) (c : CacheMap) (kv : String × CacheEntry)
    (h : kv ∈ checkCacheSize max c) : kv ∈ c := by
  unfold checkCacheSize at h
  by_cases hover : c.length ≤ max
  · rwa [if_pos hover] at h
  · rw [if_neg hover] at h
    exact mem_foldlDelete_subset _ c kv h

/-- Eviction is earliest-expiry-first: every entry removed by
`checkCacheSize` expires no later than every surviving entry. -/
theorem checkCacheSize_evicts_soonest (max : Nat) (c : CacheMap) (hc : nodupKeys c) :
    ∀ kv ∈ c, kv ∉ checkCacheSize max c →
      ∀ kv' ∈ checkCacheSize max c, kv.2.expiry ≤ kv'.2.expiry := by
  intro kv hmem hgone kv' hkeep
  by_cases hover : c.length ≤ max
  · exact absurd (by unfold checkCacheSize; rwa [if_pos hover]) hgone
  · have hkv_take : kv ∈ (c.mergeSort expiryLe).take (c.length - max) := by
      apply mem_take_of_key c (c.length - max) kv hc hmem
      by_contra hnot
      apply hgone
      rw [checkCacheSize_over max c hc hover]
      exact List.mem_filter.mpr ⟨hmem, by simpa using hnot⟩
    have hkv'_drop : kv' ∈ (c.mergeSort expiryLe).drop (c.length - max) :=
      ((checkCacheSize_perm_drop max c hc hover).mem_iff).mp hkeep
    have hpairwise : (c.mergeSort expiryLe).Pairwise (fun a b => expiryLe a b) :=
      List.sorted_mergeSort expiryLe_trans expiryLe_total c
    have hsplit : ((c.mergeSort expiryLe).take (c.length - max) ++
        (c.mergeSort expiryLe).drop (c.length - max)).Pairwise
          (fun a b => expiryLe a b) := by
      rw [List.take_append_drop]
      exact hpairwise
    have hle := (List.pairwise_append.mp hsplit).2.2 kv hkv_take kv' hkv'_drop
    simpa [expiryLe, decide_eq_true_eq] using hle

end CacheLemmas

/-! ### Claim C1 — capacity bound and eviction order -/

/-- C1 counterexample: with `maxEntries = 1` and one cached entry, a `put` of
a fresh key completes with 2 entries, because `checkCacheSize()` runs
*before* `cache.set(...)` and returns early while `cache.size <=
maxCacheSize`. The claimed post-insertion bound `size ≤ maxEntries` is
false. -/
theorem claim_C1_counterexample :
    (cachePut 1 [("k1", { data := "a", expiry := 10 })] "k2"
        { data := "b", expiry := 20 }).length = 2
    ∧ ¬(2 ≤ 1) := by decide

/-- C1 (amended): a put leaves at most `maxEntries + 1` entries (the store
is trimmed to at most `maxEntries` entries *before* the insert — exactly
`maxEntries` when it was over the limit — and the insert can then add one
more); when eviction is triggered it removes the entries with the soonest
expiry first: every evicted entry expires no later than every surviving
entry. -/
theorem claim_C1 (max : Nat) (cache : CacheMap) (key : String) (entry : CacheEntry)
    (h : nodupKeys cache) :
    (cachePut max cache key entry).length ≤ max + 1
    ∧ (checkCacheSize max cache).length ≤ max
    ∧ (¬cache.length ≤ max → (checkCacheSize max cache).length = max)
    ∧ (∀ kv ∈ cache, kv ∉ checkCacheSize max cache →
        ∀ kv' ∈ checkCacheSize max cache, kv.2.expiry ≤ kv'.2.expiry) := by
  refine ⟨?_, (checkCacheSize_length max cache h).1, (checkCacheSize_length max cache h).2,
    checkCacheSize_evicts_soonest max cache h⟩
  have h1 := length_mapSet (checkCacheSize max cache) key entry
  have h2 := (checkCacheSize_length max cache h).1
  unfold cachePut
  omega

/-- C1 witness: the amended bound at a concrete store. -/
theorem claim_C1_witness :
    (cachePut 1 [("k1", { data := "a", expiry := 10 }), ("k2", { data := "b", expiry := 5 })]
        "k3" { data := "c", expiry := 20 }).length ≤ 2 :=
  (claim_C1 1 [("k1", { data := "a", expiry := 10 }), ("k2", { data := "b", expiry := 5 })]
    "k3" { data := "c", expiry := 20 } (by decide)).1

/-! ### Claim C4 — cache `get` semantics and expiry boundary -/

/-- C4 counterexample: an entry whose `expiry` is 5 is *not* returned at
`now = 5` even though `now ≤ expiresAt`: the hit test is the strict
`Date.now() < cachedData.expiry`, so at exactly `insertion + TTL` the
lookup misses (and deletes the entry). -/
theorem claim_C4_counterexample :
    (5 ≤ 5)
    ∧ (cacheHitStep true [("k", { data := "d", expiry := 5 })] "k" 5).2 = none
    ∧ (cacheHitStep true [("k", { data := "d", expiry := 5 })] "k" 5).1 = [] := by decide

/-- C4 (amended): `get` returns the stored entry exactly when the key is
present and `now < expiresAt` (strict); when the key is present and
`now ≥ expiresAt` it returns absent and deletes the entry; when the key is
missing it returns absent without mutating; an entry inserted with TTL `T`
(expiry `insertion + T`) is already absent when looked up at exactly
`insertion + T`. -/
theorem claim_C4 (cache : CacheMap) (key : String) (now : Nat) :
    (∀ e, mapGet cache key = some e → now < e.expiry →
        cacheHitStep true cache key now = (cache, some (200, e.data)))
    ∧ (∀ e, mapGet cache key = some e → ¬now < e.expiry →
        cacheHitStep true cache key now = (mapDelete cache key, none))
    ∧ (mapGet cache key = none → cacheHitStep true cache key now = (cache, none))
    ∧ (∀ insertedAt ttl e, mapGet cache key = some e → e.expiry = insertedAt + ttl →
        now = insertedAt + ttl → (cacheHitStep true cache key now).2 = none) := by
  refine ⟨?_, ?_, ?_, ?_⟩
  · intro e he hlt
    simp [cacheHitStep, he, hlt]
  · intro e he hge
    simp [cacheHitStep, he, hge]
  · intro he
    simp [cacheHitStep, he]
  · intro insertedAt ttl e he hexp hnow
    have : ¬now < e.expiry := by omega
    simp [cacheHitStep, he, this]

/-- C4 witness: a fresh entry is served with status 200 strictly before its
expiry. -/
theorem claim_C4_witness :
    cacheHitStep true [("k", { data := "d", expiry := 10 })] "k" 3 =
      ([("k", { data := "d", expiry := 10 })], some (200, "d")) :=
  (claim_C4 [("k", { data := "d", expiry := 10 })] "k" 3).1
    { data := "d", expiry := 10 } (by decide) (by decide)

/-! ### Claim C5 — transport-error statuses -/

/-- C5 counterexample: an API-path transport error (an axios error with no
`response`, as produced by DNS/TLS/connect/reset failures) is answered
with status `error.response?.status || 500 = 500`, not a Bad-Gateway-class
status — only the image path answers 502. -/
theorem claim_C5_counterexample :
    handlerErrorStatus none = 500
    ∧ (imageUpstreamErrorResponse "connect ECONNREFUSED").1 = 502
    ∧ handlerErrorStatus none ≠ 502 := by decide

/-- C5 (amended): a connection-level upstream error on the *image* path is
answered 502 `Bad Gateway`; on the buffered API path (where
`validateStatus: () => true` means upstream statuses never reach the catch
handler) the catch answers `error.response?.status || 500`, which is 500
for a transport error — an ordinary server-error status, not a distinct
Bad-Gateway-class one. -/
theorem claim_C5 (message : String) (s : Nat) :
    (imageUpstreamErrorResponse message).1 = 502
    ∧ (imageUpstreamErrorResponse message).2.error = "Bad Gateway"
    ∧ handlerErrorStatus none = 500
    ∧ handlerErrorStatus (some s) = (if s = 0 then 500 else s) :=
  ⟨rfl, rfl, rfl, rfl⟩

/-- The cache component of the fetch/store step, characterized branch by
branch. -/
theorem fetchFromUpstreamStore_fst (cfg : ProxyConfig) (cacheable : Bool) (cacheKey : String)
    (response : UpstreamResponse) (now : Nat) (cache : CacheMap) :
    (fetchFromUpstreamStore cfg cacheable cacheKey response now cache).1 =
      if response.status = 200 ∧ cacheable = true then
        if serializedSize response.data ≤ cfg.maxCacheBodyBytes then
          cachePut cfg.maxCacheSize cache cacheKey
            { data := response.data, expiry := now + cfg.cacheDurationMs }
        else cache
      else cache := by
  unfold fetchFromUpstreamStore
  repeat' split
  all_goals rfl

/-- Entries of `cachePut` are the fresh entry or survivors of the old
cache. -/
theorem mem_cachePut (max : Nat) (cache : CacheMap) (key : String) (entry : CacheEntry)
    (kv : String × CacheEntry) (h : kv ∈ cachePut max cache key entry) :
    kv = (key, entry) ∨ kv ∈ cache := by
  unfold cachePut at h
  rcases mem_mapSet _ _ _ _ h with h | h
  · exact Or.inl h
  · exact Or.inr (checkCacheSize_subset _ _ _ h)

/-! ### Claim C6 — upstream statuses forwarded as-is; non-200 never cached -/

/-- C6: every upstream status is forwarded as-is with the upstream's body
and headers (the fetch step is total — `validateStatus: () => true` makes
every status a valid response, never a proxy failure); a non-200 response
leaves the cache untouched, so a following identical request is still a
miss and is answered with whatever status the upstream returns again. -/
theorem claim_C6 (cfg : ProxyConfig) (cacheable : Bool) (cacheKey : String)
    (response : UpstreamResponse) (now : Nat) (cache : CacheMap) (now' : Nat) :
    ((fetchFromUpstreamStore cfg cacheable cacheKey response now cache).2.status =
        response.status
      ∧ (fetchFromUpstreamStore cfg cacheable cacheKey response now cache).2.data =
        response.data
      ∧ (fetchFromUpstreamStore cfg cacheable cacheKey response now cache).2.headers =
        response.headers
      ∧ apiResponse (fetchFromUpstreamStore cfg cacheable cacheKey response now cache).2 =
        (response.status, response.data))
    ∧ (response.status ≠ 200 →
        (fetchFromUpstreamStore cfg cacheable cacheKey response now cache).1 = cache)
    ∧ (response.status ≠ 200 → mapGet cache cacheKey = none →
        (cacheHitStep true (fetchFromUpstreamStore cfg cacheable cacheKey response now cache).1
          cacheKey now').2 = none) := by
  refine ⟨⟨?_, ?_, ?_, ?_⟩, ?_, ?_⟩
  · unfold fetchFromUpstreamStore
    repeat' split
    all_goals rfl
  · unfold fetchFromUpstreamStore
    repeat' split
    all_goals rfl
  · unfold fetchFromUpstreamStore
    repeat' split
    all_goals rfl
  · unfold fetchFromUpstreamStore
    repeat' split
    all_goals rfl
  · intro hne
    unfold fetchFromUpstreamStore
    rw [if_neg (fun hand => hne hand.1)]
  · intro hne hmiss
    have hsame : (fetchFromUpstreamStore cfg cacheable cacheKey response now cache).1 = cache := by
      unfold fetchFromUpstreamStore
      rw [if_neg (fun hand => hne hand.1)]
    rw [hsame]
    simp [cacheHitStep, hmiss]

/-- C6 witness: a 404 is forwarded as 404 with its body, the cache is
unchanged, and a second lookup still misses. -/
theorem claim_C6_witness :
    (fetchFromUpstreamStore
        { cacheDurationMs := 1000, maxCacheSize := 10, maxCacheBodyBytes := 100 }
        true "/missing" { status := 404, headers := [], data := "not found" } 0 []).1 = []
    ∧ (cacheHitStep true
        (fetchFromUpstreamStore
          { cacheDurationMs := 1000, maxCacheSize := 10, maxCacheBodyBytes := 100 }
          true "/missing" { status := 404, headers := [], data := "not found" } 0 []).1
        "/missing" 1).2 = none :=
  ⟨(claim_C6 { cacheDurationMs := 1000, maxCacheSize := 10, maxCacheBodyBytes := 100 }
      true "/missing" { status := 404, headers := [], data := "not found" } 0 [] 1).2.1
    (by decide),
   (claim_C6 { cacheDurationMs := 1000, maxCacheSize := 10, maxCacheBodyBytes := 100 }
      true "/missing" { status := 404, headers := [], data := "not found" } 0 [] 1).2.2
    (by decide) (by decide)⟩

/-! ### Claim C7 — body-size ceiling -/

/-- C7: an oversized payload is never inserted (the cache is untouched, a
following lookup for a fresh key still misses, the disposition is
`skip_size`) while the request itself still succeeds with the full body;
and the store step preserves the invariant that every cached entry's
serialized payload is within `maxCacheBodyBytes`. -/
theorem claim_C7 (cfg : ProxyConfig) (cacheable : Bool) (cacheKey : String)
    (response : UpstreamResponse) (now : Nat) (cache : CacheMap) :
    (serializedSize response.data > cfg.maxCacheBodyBytes →
      (fetchFromUpstreamStore cfg cacheable cacheKey response now cache).1 = cache
      ∧ (fetchFromUpstreamStore cfg cacheable cacheKey response now cache).2.status =
          response.status
      ∧ (fetchFromUpstreamStore cfg cacheable cacheKey response now cache).2.data =
          response.data
      ∧ (response.status = 200 → cacheable = true →
          (fetchFromUpstreamStore cfg cacheable cacheKey response now cache).2.cache_result =
            "skip_size")
      ∧ (mapGet cache cacheKey = none → ∀ now',
          (cacheHitStep true (fetchFromUpstreamStore cfg cacheable cacheKey response now cache).1
            cacheKey now').2 = none))
    ∧ ((∀ kv ∈ cache, serializedSize kv.2.data ≤ cfg.maxCacheBodyBytes) →
        ∀ kv ∈ (fetchFromUpstreamStore cfg cacheable cacheKey response now cache).1,
          serializedSize kv.2.data ≤ cfg.maxCacheBodyBytes) := by
  constructor
  · intro hbig
    have hsame : (fetchFromUpstreamStore cfg cacheable cacheKey response now cache).1 = cache := by
      unfold fetchFromUpstreamStore
      repeat' split
      all_goals first | rfl | omega
    refine ⟨hsame, ?_, ?_, ?_, ?_⟩
    · unfold fetchFromUpstreamStore
      repeat' split
      all_goals rfl
    · unfold fetchFromUpstreamStore
      repeat' split
      all_goals rfl
    · intro h200 hc
      unfold fetchFromUpstreamStore
      repeat' split
      all_goals first | rfl | omega | simp_all
    · intro hmiss now'
      rw [hsame]
      simp [cacheHitStep, hmiss]
  · intro hinv kv hkv
    rw [fetchFromUpstreamStore_fst] at hkv
    by_cases hguard : response.status = 200 ∧ cacheable = true
    · rw [if_pos hguard] at hkv
      by_cases hsize : serializedSize response.data ≤ cfg.maxCacheBodyBytes
      · rw [if_pos hsize] at hkv
        rcases mem_cachePut _ _ _ _ kv hkv with h | h
        · rw [h]
          exact hsize
        · exact hinv kv h
      · rw [if_neg hsize] at hkv
        exact hinv kv hkv
    · rw [if_neg hguard] at hkv
      exact hinv kv hkv

/-- C7 witness: a 3-byte body with a 2-byte ceiling is not cached, the
request succeeds with the full body, and a following lookup misses. -/
theorem claim_C7_witness :
    (fetchFromUpstreamStore { cacheDurationMs := 1000, maxCacheSize := 10, maxCacheBodyBytes := 2 }
        true "/big" { status := 200, headers := [], data := "abc" } 0 []).1 = []
    ∧ (fetchFromUpstreamStore { cacheDurationMs := 1000, maxCacheSize := 10, maxCacheBodyBytes := 2 }
        true "/big" { status := 200, headers := [], data := "abc" } 0 []).2.status = 200
    ∧ (fetchFromUpstreamStore { cacheDurationMs := 1000, maxCacheSize := 10, maxCacheBodyBytes := 2 }
        true "/big" { status := 200, headers := [], data := "abc" } 0 []).2.data = "abc"
    ∧ (fetchFromUpstreamStore { cacheDurationMs := 1000, maxCacheSize := 10, maxCacheBodyBytes := 2 }
        true "/big" { status := 200, headers := [], data := "abc" } 0 []).2.cache_result =
      "skip_size" := by
  have h := (claim_C7 { cacheDurationMs := 1000, maxCacheSize := 10, maxCacheBodyBytes := 2 }
    true "/big" { status := 200, headers := [], data := "abc" } 0 []).1 (by decide)
  exact ⟨h.1, h.2.1, h.2.2.1, h.2.2.2.1 rfl rfl⟩

/-! ### Claim C10 — cache hits always replay status 200 -/

/-- C10: the hit path replies with status 200 unconditionally
(`sendJson(res, 200, cachedData.data)`), and only 200 responses are ever
inserted into the cache — every entry of the post-fetch cache either was
already present or is the key's fresh entry stored from a 200 response. -/
theorem claim_C10 (cacheable : Bool) (cache : CacheMap) (key : String) (now : Nat) :
    (∀ resp, (cacheHitStep cacheable cache key now).2 = some resp → resp.1 = 200)
    ∧ (∀ cfg response now' kv,
        kv ∈ (fetchFromUpstreamStore cfg cacheable key response now' cache).1 →
          kv ∈ cache ∨ (response.status = 200 ∧
            kv = (key, { data := response.data, expiry := now' + cfg.cacheDurationMs }))) := by
  constructor
  · intro resp h
    unfold cacheHitStep at h
    split at h
    · split at h
      · split at h
        · simp only [Option.some.injEq] at h
          rw [← h]
        · simp at h
      · simp at h
    · simp at h
  · intro cfg response now' kv hkv
    rw [fetchFromUpstreamStore_fst] at hkv
    by_cases hguard : response.status = 200 ∧ cacheable = true
    · rw [if_pos hguard] at hkv
      by_cases hsize : serializedSize response.data ≤ cfg.maxCacheBodyBytes
      · rw [if_pos hsize] at hkv
        rcases mem_cachePut _ _ _ _ kv hkv with h | h
        · exact Or.inr ⟨hguard.1, h⟩
        · exact Or.inl h
      · rw [if_neg hsize] at hkv
        exact Or.inl hkv
    · rw [if_neg hguard] at hkv
      exact Or.inl hkv

/-- C10 witness: a concrete hit's response carries status 200, and after a
concrete 200 store the fresh entry is accounted for by the 200 branch. -/
theorem claim_C10_witness :
    ((200 : Nat), "d").1 = 200
    ∧ (("k", ({ data := "d", expiry := 0 + 1000 } : CacheEntry)) ∈ ([] : CacheMap)
      ∨ ((200 : Nat) = 200
        ∧ ("k", ({ data := "d", expiry := 0 + 1000 } : CacheEntry)) =
          ("k", { data := "d", expiry := 0 + 1000 }))) :=
  ⟨(claim_C10 true [("k", { data := "d", expiry := 10 })] "k" 3).1 (200, "d") (by decide),
   (claim_C10 true [] "k" 3).2
     { cacheDurationMs := 1000, maxCacheSize := 10, maxCacheBodyBytes := 100 }
     { status := 200, headers := [], data := "d" } 0
     ("k", { data := "d", expiry := 0 + 1000 }) (by decide)⟩

/-! ### Singleflight invariants -/

/-- Coherence invariant of the coalescing engine: registry keys are
unique, started-fetch ids are they unique; a registered fetch is started and
unsettled with the registered key; an unsettled started fetch is
registered under its key; and every started or settled id is below the
fresh-id counter. -/
def SfInv (s : SfState) : Prop :=
  nodupKeys s.inflight
  ∧ nodupKeys s.started
  ∧ (∀ k f, mapGet s.inflight k = some f →
      mapGet s.started f = some k ∧ mapGet s.settled f = none)
  ∧ (∀ f k, mapGet s.started f = some k → mapGet s.settled f = none →
      mapGet s.inflight k = some f)
  ∧ (∀ f k, mapGet s.started f = some k → f < s.nextFetchId)
  ∧ (∀ f o, mapGet s.settled f = some o → f < s.nextFetchId)

theorem sfInv_init : SfInv sfInit := by
  refine ⟨?_, ?_, ?_, ?_, ?_, ?_⟩ <;> simp [sfInit, nodupKeys, mapGet]

theorem nodupKeys_append_fresh {α : Type} (m : List (Nat × α)) (f : Nat) (v : α)
    (hm : nodupKeys m) (hf : mapGet m f = none) : nodupKeys (m ++ [(f, v)]) := by
  unfold nodupKeys at hm ⊢
  rw [List.map_append]
  refine List.Nodup.append hm (by simp) ?_
  intro x hx hx'
  simp only [List.map_cons, List.map_nil, List.mem_singleton] at hx'
  subst hx'
  have := mapGet_isSome_of_mem_keys m x hx
  rw [hf] at this
  simp at this

theorem mapGet_singleton_eq {α : Type} (f g : Nat) (v : α) :
    mapGet [(f, v)] g = if f = g then some v else none := rfl

/-- One step preserves the invariant. -/
theorem sfInv_step (s s' : SfState) (e : SfEvent) (hinv : SfInv s)
    (hstep : sfStep s e = some s') : SfInv s' := by
  obtain ⟨h1, h2, h3, h4, h5, h6⟩ := hinv
  cases e with
  | arrive caller key =>
    cases hin : mapGet s.inflight key with
    | some fid =>
      simp only [sfStep, hin] at hstep
      cases hstep
      exact ⟨h1, h2, h3, h4, h5, h6⟩
    | none =>
      simp only [sfStep, hin] at hstep
      cases hstep
      have hfresh : mapGet s.started s.nextFetchId = none := by
        cases hs : mapGet s.started s.nextFetchId with
        | none => rfl
        | some k' => exact absurd (h5 _ _ hs) (by omega)
      have hfresh' : mapGet s.settled s.nextFetchId = none := by
        cases hs : mapGet s.settled s.nextFetchId with
        | none => rfl
        | some o => exact absurd (h6 _ _ hs) (by omega)
      refine ⟨nodupKeys_mapSet _ _ _ h1, nodupKeys_append_fresh _ _ _ h2 hfresh, ?_, ?_, ?_, ?_⟩
      · intro k' f' hget
        by_cases hk : k' = key
        · subst hk
          rw [mapGet_mapSet_self] at hget
          cases hget
          constructor
          · rw [mapGet_append_right _ _ _ hfresh, mapGet_singleton_eq, if_pos rfl]
          · exact hfresh'
        · rw [mapGet_mapSet_ne _ _ _ _ hk] at hget
          obtain ⟨hst, hse⟩ := h3 k' f' hget
          exact ⟨mapGet_append_left _ _ _ _ hst, hse⟩
      · intro f' k' hst hse
        cases hs : mapGet s.started f' with
        | some k'' =>
          rw [mapGet_append_left _ _ _ _ hs] at hst
          cases hst
          have := h4 f' k' hs hse
          by_cases hk : k' = key
          · subst hk
            rw [hin] at this
            cases this
          · rw [mapGet_mapSet_ne _ _ _ _ hk]
            exact this
        | none =>
          rw [mapGet_append_right _ _ _ hs, mapGet_singleton_eq] at hst
          by_cases hf : s.nextFetchId = f'
          · rw [if_pos hf] at hst
            cases hst
            subst hf
            rw [mapGet_mapSet_self]
          · rw [if_neg hf] at hst
            cases hst
      · intro f' k' hst
        show f' < s.nextFetchId + 1
        cases hs : mapGet s.started f' with
        | some k'' =>
          have := h5 f' k'' hs
          omega
        | none =>
          rw [mapGet_append_right _ _ _ hs, mapGet_singleton_eq] at hst
          by_cases hf : s.nextFetchId = f'
          · omega
          · rw [if_neg hf] at hst
            cases hst
      · intro f' o hse
        show f' < s.nextFetchId + 1
        have := h6 f' o hse
        omega
  | settle fid outcome =>
    cases hkey : mapGet s.started fid with
    | none => simp [sfStep, hkey] at hstep
    | some key =>
      simp only [sfStep, hkey] at hstep
      by_cases hset : (mapGet s.settled fid).isSome
      · rw [if_pos hset] at hstep
        cases hstep
      · rw [if_neg hset] at hstep
        cases hstep
        have hsetn : mapGet s.settled fid = none := by
          cases hs : mapGet s.settled fid with
          | none => rfl
          | some o => rw [hs] at hset; simp at hset
        refine ⟨nodupKeys_mapDelete _ _ h1, h2, ?_, ?_, h5, ?_⟩
        · intro k' f' hget
          by_cases hk : k' = key
          · subst hk
            rw [mapGet_mapDelete_self _ _ h1] at hget
            cases hget
          · rw [mapGet_mapDelete_ne _ _ _ hk] at hget
            obtain ⟨hst, hse⟩ := h3 k' f' hget
            refine ⟨hst, ?_⟩
            have hne : f' ≠ fid := by
              intro hf
              subst hf
              rw [hkey] at hst
              cases hst
              exact hk rfl
            rw [mapGet_mapSet_ne _ _ _ _ hne]
            exact hse
        · intro f' k' hst hse
          have hne : f' ≠ fid := by
            intro hf
            subst hf
            rw [mapGet_mapSet_self] at hse
            cases hse
          rw [mapGet_mapSet_ne _ _ _ _ hne] at hse
          have hreg := h4 f' k' hst hse
          have hkne : k' ≠ key := by
            intro hk
            have hreg' := h4 fid key hkey hsetn
            rw [← hk] at hreg'
            rw [hreg] at hreg'
            cases hreg'
            exact hne rfl
          rw [mapGet_mapDelete_ne _ _ _ hkne]
          exact hreg
        · intro f' o hse
          by_cases hf : f' = fid
          · subst hf
            exact h5 _ _ hkey
          · rw [mapGet_mapSet_ne _ _ _ _ hf] at hse
            exact h6 f' o hse
  | deliver caller =>
    cases hw : mapGet s.waiters caller with
    | none => simp [sfStep, hw] at hstep
    | some fid =>
      simp only [sfStep, hw] at hstep
      cases hs : mapGet s.settled fid with
      | none => rw [hs] at hstep; cases hstep
      | some outcome =>
        rw [hs] at hstep
        cases hstep
        exact ⟨h1, h2, h3, h4, h5, h6⟩

theorem sfInv_run (es : List SfEvent) :
    ∀ s s', SfInv s → sfRun s es = some s' → SfInv s' := by
  induction es with
  | nil =>
    intro s s' hinv hrun
    simp only [sfRun, Option.some.injEq] at hrun
    rw [← hrun]
    exact hinv
  | cons e es ih =>
    intro s s' hinv hrun
    simp only [sfRun] at hrun
    cases hstep : sfStep s e with
    | none => rw [hstep] at hrun; cases hrun
    | some s₁ =>
      rw [hstep] at hrun
      exact ih s₁ s' (sfInv_step s s₁ e hinv hstep) hrun

theorem sfInv_reachable (s : SfState) (h : sfReachable s) : SfInv s := by
  obtain ⟨es, hes⟩ := h
  exact sfInv_run es sfInit s sfInv_init hes

/-! ### Coalescing runs -/

theorem mapGet_map_pair (cs : List Nat) (fid : Nat) (c : Nat) (hc : c ∈ cs) :
    mapGet (cs.map (fun c => (c, fid))) c = some fid := by
  induction cs with
  | nil => simp at hc
  | cons c₀ rest ih =>
    by_cases h : c₀ = c
    · simp [mapGet, h]
    · rcases List.mem_cons.mp hc with h' | h'
      · exact absurd h'.symm h
      · simpa [mapGet, h] using ih h'

theorem mapGet_foldl_mapSet_const (cs : List Nat) :
    ∀ (d : List (Nat × FetchOutcome)) (c : Nat) (outcome : FetchOutcome),
      (c ∈ cs ∨ mapGet d c = some outcome) →
      mapGet (cs.foldl (fun d c => mapSet d c outcome) d) c = some outcome := by
  induction cs with
  | nil =>
    intro d c outcome h
    rcases h with h | h
    · simp at h
    · exact h
  | cons c₀ rest ih =>
    intro d c outcome h
    show mapGet (rest.foldl (fun d c => mapSet d c outcome) (mapSet d c₀ outcome)) c =
      some outcome
    rcases h with h | h
    · rcases List.mem_cons.mp h with h' | h'
      · subst h'
        by_cases hc : c ∈ rest
        · exact ih _ c outcome (Or.inl hc)
        · exact ih _ c outcome (Or.inr (mapGet_mapSet_self _ _ _))
      · exact ih _ c outcome (Or.inl h')
    · by_cases hc : c₀ = c
      · subst hc
        exact ih _ c₀ outcome (Or.inr (mapGet_mapSet_self _ _ _))
      · exact ih _ c outcome (Or.inr (by rwa [mapGet_mapSet_ne _ _ _ _ (fun he => hc he.symm)]))

/-- Arrivals for a key with a pending fetch only append waiters. -/
theorem sfRun_arrivals_existing (callers : List Nat) :
    ∀ (s : SfState) (k : String) (fid : Nat), mapGet s.inflight k = some fid →
      sfRun s (callers.map (fun c => SfEvent.arrive c k)) =
        some { s with waiters := s.waiters ++ callers.map (fun c => (c, fid)) } := by
  induction callers with
  | nil =>
    intro s k fid _
    simp [sfRun]
  | cons c₀ rest ih =>
    intro s k fid hin
    show sfRun s (SfEvent.arrive c₀ k :: rest.map (fun c => SfEvent.arrive c k)) = _
    have hstep : sfStep s (SfEvent.arrive c₀ k) =
        some { s with waiters := s.waiters ++ [(c₀, fid)] } := by
      simp [sfStep, hin]
    rw [sfRun, hstep]
    dsimp only
    rw [ih { s with waiters := s.waiters ++ [(c₀, fid)] } k fid hin]
    simp [List.append_assoc]

/-- The post-arrival state for `N ≥ 1` concurrent cache-misses on an
unregistered key: one fetch is invoked and registered, every caller waits
on it. -/
def sfArrivedState (s : SfState) (k : String) (callers : List Nat) : SfState :=
  { s with
    inflight := mapSet s.inflight k s.nextFetchId
    nextFetchId := s.nextFetchId + 1
    started := s.started ++ [(s.nextFetchId, k)]
    waiters := s.waiters ++ callers.map (fun c => (c, s.nextFetchId)) }

theorem sfRun_arrivals_fresh (s : SfState) (k : String) (c₀ : Nat) (rest : List Nat)
    (hin : mapGet s.inflight k = none) :
    sfRun s ((c₀ :: rest).map (fun c => SfEvent.arrive c k)) =
      some (sfArrivedState s k (c₀ :: rest)) := by
  show sfRun s (SfEvent.arrive c₀ k :: rest.map (fun c => SfEvent.arrive c k)) = _
  have hstep : sfStep s (SfEvent.arrive c₀ k) =
      some { s with
        inflight := mapSet s.inflight k s.nextFetchId
        nextFetchId := s.nextFetchId + 1
        started := s.started ++ [(s.nextFetchId, k)]
        waiters := s.waiters ++ [(c₀, s.nextFetchId)] } := by
    simp [sfStep, hin]
  rw [sfRun, hstep]
  dsimp only
  rw [sfRun_arrivals_existing rest _ k s.nextFetchId (mapGet_mapSet_self _ _ _)]
  unfold sfArrivedState
  simp [List.append_assoc]

/-- Delivering to waiters of a settled fetch records the same outcome for
each of them and changes nothing else. -/
theorem sfRun_delivers (cs : List Nat) :
    ∀ (t : SfState) (fid : Nat) (outcome : FetchOutcome),
      (∀ c ∈ cs, mapGet t.waiters c = some fid) →
      mapGet t.settled fid = some outcome →
      sfRun t (cs.map SfEvent.deliver) =
        some { t with delivered := cs.foldl (fun d c => mapSet d c outcome) t.delivered } := by
  induction cs with
  | nil =>
    intro t fid outcome _ _
    simp [sfRun]
  | cons c₀ rest ih =>
    intro t fid outcome hw hs
    show sfRun t (SfEvent.deliver c₀ :: rest.map SfEvent.deliver) = _
    have hstep : sfStep t (SfEvent.deliver c₀) =
        some { t with delivered := mapSet t.delivered c₀ outcome } := by
      have hw₀ := hw c₀ (by simp)
      simp [sfStep, hw₀, hs]
    rw [sfRun, hstep]
    dsimp only
    rw [ih { t with delivered := mapSet t.delivered c₀ outcome } fid outcome
      (fun c hc => hw c (List.mem_cons_of_mem _ hc)) hs]
    rfl

theorem sfRun_append (es₁ es₂ : List SfEvent) :
    ∀ s s₁, sfRun s es₁ = some s₁ → sfRun s (es₁ ++ es₂) = sfRun s₁ es₂ := by
  induction es₁ with
  | nil =>
    intro s s₁ h
    simp only [sfRun, Option.some.injEq] at h
    rw [← h]
    rfl
  | cons e es ih =>
    intro s s₁ h
    simp only [sfRun] at h
    cases hstep : sfStep s e with
    | none => rw [hstep] at h; cases h
    | some s₂ =>
      rw [hstep] at h
      show sfRun s (e :: (es ++ es₂)) = _
      rw [sfRun, hstep]
      exact ih s₂ s₁ h

/-! ### Claim C2 — single-flight coalescing -/

/-- C2: (a) in every reachable state of the coalescing engine at most one
fetch per key is in progress — two started-but-unsettled fetches with the
same key are the same fetch; (b) for `N ≥ 1` concurrent cache-misses on an
unregistered key, running all `N` arrivals performs exactly one fetch
invocation (the fetch counter rises by one, exactly one fetch record for
the key is appended), every caller attaches as a waiter of that single
fetch, and when it settles — fulfilled or rejected alike — every caller is
delivered the identical outcome. -/
theorem claim_C2 :
    (∀ s, sfReachable s → ∀ f g k, mapGet s.started f = some k → mapGet s.settled f = none →
        mapGet s.started g = some k → mapGet s.settled g = none → f = g)
    ∧ (∀ s k callers outcome, sfReachable s →
        mapGet s.inflight k = none → callers ≠ [] →
        (∀ c ∈ callers, mapGet s.waiters c = none) →
        ∃ s', sfRun s (callers.map (fun c => SfEvent.arrive c k) ++
            SfEvent.settle s.nextFetchId outcome :: callers.map SfEvent.deliver) = some s'
          ∧ s'.nextFetchId = s.nextFetchId + 1
          ∧ s'.started = s.started ++ [(s.nextFetchId, k)]
          ∧ (∀ c ∈ callers, (c, s.nextFetchId) ∈ s'.waiters)
          ∧ (∀ c ∈ callers, mapGet s'.delivered c = some outcome)) := by
  constructor
  · intro s hreach f g k hf hfn hg hgn
    obtain ⟨_, _, _, h4, _, _⟩ := sfInv_reachable s hreach
    have hf' := h4 f k hf hfn
    have hg' := h4 g k hg hgn
    rw [hf'] at hg'
    cases hg'
    rfl
  · intro s k callers outcome hreach hin hne hwait
    obtain ⟨h1, h2, h3, h4, h5, h6⟩ := sfInv_reachable s hreach
    cases callers with
    | nil => exact absurd rfl hne
    | cons c₀ rest =>
      have harr := sfRun_arrivals_fresh s k c₀ rest hin
      have hstfresh : mapGet s.started s.nextFetchId = none := by
        cases hs : mapGet s.started s.nextFetchId with
        | none => rfl
        | some k' => exact absurd (h5 _ _ hs) (by omega)
      have hsefresh : mapGet s.settled s.nextFetchId = none := by
        cases hs : mapGet s.settled s.nextFetchId with
        | none => rfl
        | some o => exact absurd (h6 _ _ hs) (by omega)
      have hstartedA : mapGet (sfArrivedState s k (c₀ :: rest)).started s.nextFetchId =
          some k := by
        show mapGet (s.started ++ [(s.nextFetchId, k)]) s.nextFetchId = some k
        rw [mapGet_append_right _ _ _ hstfresh, mapGet_singleton_eq, if_pos rfl]
      have hsettle : sfStep (sfArrivedState s k (c₀ :: rest))
          (SfEvent.settle s.nextFetchId outcome) =
          some { sfArrivedState s k (c₀ :: rest) with
                 settled := mapSet s.settled s.nextFetchId outcome
                 inflight := mapDelete (mapSet s.inflight k s.nextFetchId) k } := by
        show (match mapGet (sfArrivedState s k (c₀ :: rest)).started s.nextFetchId with
          | none => none
          | some key =>
            if (mapGet (sfArrivedState s k (c₀ :: rest)).settled s.nextFetchId).isSome then none
            else some { sfArrivedState s k (c₀ :: rest) with
              settled := mapSet (sfArrivedState s k (c₀ :: rest)).settled s.nextFetchId outcome
              inflight := mapDelete (sfArrivedState s k (c₀ :: rest)).inflight key }) = _
        rw [hstartedA]
        have : mapGet (sfArrivedState s k (c₀ :: rest)).settled s.nextFetchId = none := hsefresh
        rw [this]
        rfl
      have hwaitA : ∀ c ∈ c₀ :: rest,
          mapGet ({ sfArrivedState s k (c₀ :: rest) with
            settled := mapSet s.settled s.nextFetchId outcome
            inflight := mapDelete (mapSet s.inflight k s.nextFetchId) k } : SfState).waiters c =
          some s.nextFetchId := by
        intro c hc
        show mapGet (s.waiters ++ (c₀ :: rest).map (fun c => (c, s.nextFetchId))) c =
          some s.nextFetchId
        rw [mapGet_append_right _ _ _ (hwait c hc)]
        exact mapGet_map_pair _ _ _ hc
      have hsettled' : mapGet ({ sfArrivedState s k (c₀ :: rest) with
            settled := mapSet s.settled s.nextFetchId outcome
            inflight := mapDelete (mapSet s.inflight k s.nextFetchId) k } : SfState).settled
          s.nextFetchId = some outcome := mapGet_mapSet_self _ _ _
      have hdel := sfRun_delivers (c₀ :: rest) _ s.nextFetchId outcome hwaitA hsettled'
      refine ⟨{ sfArrivedState s k (c₀ :: rest) with
          settled := mapSet s.settled s.nextFetchId outcome
          inflight := mapDelete (mapSet s.inflight k s.nextFetchId) k
          delivered := (c₀ :: rest).foldl (fun d c => mapSet d c outcome) s.delivered },
        ?_, rfl, rfl, ?_, ?_⟩
      · rw [sfRun_append _ _ s _ harr]
        show sfRun _ (SfEvent.settle s.nextFetchId outcome :: (c₀ :: rest).map SfEvent.deliver)
          = _
        rw [sfRun, hsettle]
        dsimp only
        exact hdel
      · intro c hc
        show (c, s.nextFetchId) ∈ s.waiters ++ (c₀ :: rest).map (fun c => (c, s.nextFetchId))
        exact List.mem_append_right _ (List.mem_map.mpr ⟨c, hc, rfl⟩)
      · intro c hc
        show mapGet ((c₀ :: rest).foldl (fun d c => mapSet d c outcome) s.delivered) c =
          some outcome
        exact mapGet_foldl_mapSet_const _ _ _ _ (Or.inl hc)

/-- C2 witness: two concurrent misses for key `"k"` from the initial state
invoke one fetch, both wait on it, and a rejected fetch delivers the same
error outcome to both; the mutual-exclusion part applied to the state
after one arrival. -/
theorem claim_C2_witness :
    (∃ s', sfRun sfInit ([0, 1].map (fun c => SfEvent.arrive c "k") ++
        SfEvent.settle sfInit.nextFetchId (FetchOutcome.err "upstream failure") ::
          [0, 1].map SfEvent.deliver) = some s'
      ∧ s'.nextFetchId = sfInit.nextFetchId + 1
      ∧ s'.started = sfInit.started ++ [(sfInit.nextFetchId, "k")]
      ∧ (∀ c ∈ [0, 1], (c, sfInit.nextFetchId) ∈ s'.waiters)
      ∧ (∀ c ∈ [0, 1], mapGet s'.delivered c =
          some (FetchOutcome.err "upstream failure")))
    ∧ (0 : Nat) = 0 :=
  ⟨claim_C2.2 sfInit "k" [0, 1] (FetchOutcome.err "upstream failure")
      ⟨[], rfl⟩ rfl (by decide) (by decide),
   claim_C2.1 (⟨[("k", 0)], 1, [(0, "k")], [], [(0, 0)], []⟩ : SfState)
      ⟨[SfEvent.arrive 0 "k"], rfl⟩ 0 0 "k" (by decide) (by decide) (by decide) (by decide)⟩

/-! ### Claim C3 — unconditional removal of the in-flight registration -/

/-- C3: when a coordinated fetch settles — with a fulfilled or a rejected
outcome alike — the `finally` clause removes its key from the in-flight
registry, so the key is absent afterwards, and a later miss for the same
key takes the fresh-fetch branch: it invokes a new fetch (fresh id,
counter bumped, new fetch record) and re-registers the key. -/
theorem claim_C3 (s : SfState) (hreach : sfReachable s) (fid : Nat) (k : String)
    (outcome : FetchOutcome) (hkey : mapGet s.started fid = some k) (s' : SfState)
    (hstep : sfStep s (SfEvent.settle fid outcome) = some s') :
    mapGet s'.inflight k = none
    ∧ (∀ c, sfStep s' (SfEvent.arrive c k) =
        some { s' with
          inflight := mapSet s'.inflight k s'.nextFetchId
          nextFetchId := s'.nextFetchId + 1
          started := s'.started ++ [(s'.nextFetchId, k)]
          waiters := s'.waiters ++ [(c, s'.nextFetchId)] }) := by
  obtain ⟨h1, _, _, _, _, _⟩ := sfInv_reachable s hreach
  simp only [sfStep, hkey] at hstep
  by_cases hset : (mapGet s.settled fid).isSome
  · rw [if_pos hset] at hstep
    cases hstep
  · rw [if_neg hset] at hstep
    cases hstep
    have hgone : mapGet (mapDelete s.inflight k) k = none := mapGet_mapDelete_self _ _ h1
    refine ⟨hgone, ?_⟩
    intro c
    simp [sfStep, hgone]

/-- C3 witness: settling the only pending fetch with a rejection empties
the registry for its key and a later miss starts fetch 1. -/
theorem claim_C3_witness :
    mapGet (⟨[], 1, [(0, "k")], [(0, FetchOutcome.err "boom")], [(0, 0)], []⟩
      : SfState).inflight "k" = none :=
  (claim_C3 (⟨[("k", 0)], 1, [(0, "k")], [], [(0, 0)], []⟩ : SfState)
    ⟨[SfEvent.arrive 0 "k"], rfl⟩ 0 "k" (FetchOutcome.err "boom") (by decide)
    (⟨[], 1, [(0, "k")], [(0, FetchOutcome.err "boom")], [(0, 0)], []⟩ : SfState)
    (by decide)).1

/-! ### Query serialization lemmas (for C9) -/

theorem append_cons_inj {α : Type} (sep : α) :
    ∀ (a b x y : List α), sep ∉ a → sep ∉ b →
      a ++ sep :: x = b ++ sep :: y → a = b ∧ x = y := by
  intro a
  induction a with
  | nil =>
    intro b x y _ hb h
    cases b with
    | nil => simpa using h
    | cons d b' =>
      simp only [List.nil_append, List.cons_append, List.cons.injEq] at h
      exact absurd (by rw [h.1]; exact List.mem_cons_self _ _) hb
  | cons c a' ih =>
    intro b x y ha hb h
    cases b with
    | nil =>
      simp only [List.cons_append, List.nil_append, List.cons.injEq] at h
      exact absurd (by rw [← h.1]; exact List.mem_cons_self _ _) ha
    | cons d b' =>
      simp only [List.cons_append, List.cons.injEq] at h
      obtain ⟨hcd, h'⟩ := h
      have ha' : sep ∉ a' := fun hm => ha (List.mem_cons_of_mem _ hm)
      have hb' : sep ∉ b' := fun hm => hb (List.mem_cons_of_mem _ hm)
      obtain ⟨he, hxy⟩ := ih b' x y ha' hb' h'
      exact ⟨by rw [hcd, he], hxy⟩

/-- `tokens.join(sep)` at the character level. -/
def joinSep (sep : Char) : List (List Char) → List Char
  | [] => []
  | x :: rest => x ++ (rest.map (fun t => sep :: t)).flatten

theorem joinSep_inj (sep : Char) :
    ∀ (l₁ l₂ : List (List Char)), (∀ t ∈ l₁, sep ∉ t) → (∀ t ∈ l₂, sep ∉ t) →
      l₁ ≠ [] → l₂ ≠ [] → joinSep sep l₁ = joinSep sep l₂ → l₁ = l₂ := by
  intro l₁
  induction l₁ with
  | nil => intro l₂ _ _ hne _ _; exact absurd rfl hne
  | cons x r₁ ih =>
    intro l₂ h₁ h₂ _ hne₂ heq
    cases l₂ with
    | nil => exact absurd rfl hne₂
    | cons y r₂ =>
      cases r₁ with
      | nil =>
        cases r₂ with
        | nil =>
          simp only [joinSep, List.map_nil, List.flatten_nil, List.append_nil] at heq
          rw [heq]
        | cons z₂ r₂' =>
          exfalso
          simp only [joinSep, List.map_nil, List.flatten_nil, List.append_nil,
            List.map_cons, List.flatten_cons, List.cons_append] at heq
          apply h₁ x (List.mem_cons_self _ _)
          rw [heq]
          simp
      | cons z₁ r₁' =>
        cases r₂ with
        | nil =>
          exfalso
          simp only [joinSep, List.map_nil, List.flatten_nil, List.append_nil,
            List.map_cons, List.flatten_cons, List.cons_append] at heq
          apply h₂ y (List.mem_cons_self _ _)
          rw [← heq]
          simp
        | cons z₂ r₂' =>
          simp only [joinSep, List.map_cons, List.flatten_cons, List.cons_append] at heq
          have heq' : x ++ sep :: (z₁ ++ (r₁'.map (fun t => sep :: t)).flatten) =
              y ++ sep :: (z₂ ++ (r₂'.map (fun t => sep :: t)).flatten) := by
            simpa [List.append_assoc] using heq
          obtain ⟨hxy, htail⟩ := append_cons_inj sep x y _ _
            (h₁ x (List.mem_cons_self _ _)) (h₂ y (List.mem_cons_self _ _)) heq'
          have htails : joinSep sep (z₁ :: r₁') = joinSep sep (z₂ :: r₂') := htail
          have := ih (z₂ :: r₂')
            (fun t ht => h₁ t (List.mem_cons_of_mem _ ht))
            (fun t ht => h₂ t (List.mem_cons_of_mem _ ht))
            (by simp) (by simp) htails
          rw [hxy, this]

theorem intercalate_go_data (s : String) :
    ∀ (l : List String) (acc : String),
      (String.intercalate.go acc s l).data =
        acc.data ++ (l.map (fun a => s.data ++ a.data)).flatten := by
  intro l
  induction l with
  | nil => intro acc; simp [String.intercalate.go]
  | cons a as ih =>
    intro acc
    show (String.intercalate.go (acc ++ s ++ a) s as).data = _
    rw [ih (acc ++ s ++ a)]
    simp [String.data_append, List.append_assoc]

theorem intercalate_data_joinSep (sep : Char) (s : String) (hs : s.data = [sep])
    (l : List String) :
    (String.intercalate s l).data = joinSep sep (l.map String.data) := by
  cases l with
  | nil => rfl
  | cons a as =>
    show (String.intercalate.go a s as).data = _
    rw [intercalate_go_data s as a]
    simp only [joinSep, List.map_cons, List.map_map]
    congr 1
    apply congrArg
    apply List.map_congr_left
    intro t _
    simp [hs, Function.comp]

theorem mem_data_serializeQuery_token (p : String × String) (hp : sepFreePair p)
    (sep : Char) (hsep : sep = '&' ∨ sep = '=') : sep ∈ (p.1 ++ "=" ++ p.2).data →
      sep = '=' ∧ '=' ∉ p.1.data := by
  intro hmem
  obtain ⟨hn1, hn2, hv1, hv2⟩ := hp
  simp only [String.data_append, List.mem_append] at hmem
  rcases hsep with h | h <;> subst h
  · rcases hmem with (hmem | hmem) | hmem
    · exact absurd hmem hn1
    · simp [show ("=" : String).data = ['='] from rfl] at hmem
    · exact absurd hmem hv1
  · exact ⟨rfl, hn2⟩

theorem amp_not_mem_token (p : String × String) (hp : sepFreePair p) :
    '&' ∉ (p.1 ++ "=" ++ p.2).data := by
  intro hmem
  obtain ⟨h, _⟩ := mem_data_serializeQuery_token p hp '&' (Or.inl rfl) hmem
  cases h

theorem token_inj (p q : String × String) (hp : sepFreePair p) (hq : sepFreePair q)
    (h : p.1 ++ "=" ++ p.2 = q.1 ++ "=" ++ q.2) : p = q := by
  have hd := congrArg String.data h
  simp only [String.data_append, List.append_assoc,
    show ("=" : String).data = ['='] from rfl, List.singleton_append] at hd
  obtain ⟨h1, h2⟩ := append_cons_inj '=' _ _ _ _ hp.2.1 hq.2.1 hd
  obtain ⟨k1, v1⟩ := p
  obtain ⟨k2, v2⟩ := q
  simp only [Prod.mk.injEq]
  exact ⟨String.ext h1, String.ext h2⟩

theorem map_token_inj : ∀ (q₁ q₂ : QueryParams),
    (∀ p ∈ q₁, sepFreePair p) → (∀ p ∈ q₂, sepFreePair p) →
    q₁.map (fun p => p.1 ++ "=" ++ p.2) = q₂.map (fun p => p.1 ++ "=" ++ p.2) →
    q₁ = q₂ := by
  intro q₁
  induction q₁ with
  | nil =>
    intro q₂ _ _ h
    cases q₂ with
    | nil => rfl
    | cons p q₂' => simp at h
  | cons p q₁' ih =>
    intro q₂ h₁ h₂ h
    cases q₂ with
    | nil => simp at h
    | cons r q₂' =>
      simp only [List.map_cons, List.cons.injEq] at h
      have hp := token_inj p r (h₁ p (List.mem_cons_self _ _)) (h₂ r (List.mem_cons_self _ _))
        h.1
      rw [hp, ih q₂' (fun t ht => h₁ t (List.mem_cons_of_mem _ ht))
        (fun t ht => h₂ t (List.mem_cons_of_mem _ ht)) h.2]

theorem serializeQuery_data (q : QueryParams) :
    (serializeQuery q).data = joinSep '&' (q.map (fun p => (p.1 ++ "=" ++ p.2).data)) := by
  unfold serializeQuery
  rw [intercalate_data_joinSep '&' "&" rfl]
  rw [List.map_map]
  rfl

theorem token_data_ne_nil (p : String × String) : (p.1 ++ "=" ++ p.2).data ≠ [] := by
  simp only [String.data_append]
  intro h
  have := congrArg List.length h
  simp [show ("=" : String).data = ['='] from rfl] at this

theorem serializeQuery_inj (q₁ q₂ : QueryParams)
    (h₁ : ∀ p ∈ q₁, sepFreePair p) (h₂ : ∀ p ∈ q₂, sepFreePair p)
    (hq₁ : q₁ ≠ []) (hq₂ : q₂ ≠ []) (h : serializeQuery q₁ = serializeQuery q₂) :
    q₁ = q₂ := by
  have hd := congrArg String.data h
  rw [serializeQuery_data, serializeQuery_data] at hd
  have htokens := joinSep_inj '&' _ _
    (by
      intro t ht
      rcases List.mem_map.mp ht with ⟨p, hp, hpt⟩
      rw [← hpt]
      exact amp_not_mem_token p (h₁ p hp))
    (by
      intro t ht
      rcases List.mem_map.mp ht with ⟨p, hp, hpt⟩
      rw [← hpt]
      exact amp_not_mem_token p (h₂ p hp))
    (by simpa using hq₁) (by simpa using hq₂) hd
  apply map_token_inj q₁ q₂ h₁ h₂
  have : ∀ q : QueryParams, (q.map (fun p => (p.1 ++ "=" ++ p.2).data)) =
      (q.map (fun p => p.1 ++ "=" ++ p.2)).map String.data := by
    intro q
    rw [List.map_map]
    rfl
  rw [this, this] at htokens
  apply List.map_injective_iff.mpr ?_ htokens
  intro s t hst
  exact String.ext hst

/-! ### Claim C9 — key base, parameter order, and the api_key scrub -/

/-- C9 counterexample: a query `api_key=a\u{200B}&b=2` (the credential
carries a zero-width space, Unicode category `Cf`) is scrubbed, and the
scrub deletes every `api_key` pair and re-appends the sanitized values at
the *end*: the resulting parameter list — and hence the key's base
component — is not the original query verbatim and does not preserve the
original parameter order; moreover the order-swapped logically-equivalent
query produces the *same* key base after scrubbing, not a distinct one. -/
theorem claim_C9_counterexample :
    (sanitizeUrlSearchParams [("api_key", "a\u200B"), ("b", "2")]).1 ≠
        [("api_key", "a\u200B"), ("b", "2")]
    ∧ (sanitizeUrlSearchParams [("api_key", "a\u200B"), ("b", "2")]).1 =
        [("b", "2"), ("api_key", "a")]
    ∧ buildCacheKeyBase "/x" (sanitizeUrlSearchParams [("api_key", "a\u200B"), ("b", "2")]).1 ≠
        buildCacheKeyBase "/x" [("api_key", "a\u200B"), ("b", "2")]
    ∧ [("api_key", "a\u200B"), ("b", "2")] ≠ [("b", "2"), ("api_key", "a\u200B")]
    ∧ List.Perm [("api_key", "a\u200B"), ("b", "2")] [("b", "2"), ("api_key", "a\u200B")]
    ∧ buildCacheKeyBase "/x" (sanitizeUrlSearchParams [("api_key", "a\u200B"), ("b", "2")]).1 =
        buildCacheKeyBase "/x"
          (sanitizeUrlSearchParams [("b", "2"), ("api_key", "a\u200B")]).1 := by
  refine ⟨by decide, by decide, by decide, by decide, ?_, by decide⟩
  exact List.Perm.swap _ _ _

/-- C9 (amended): when the scrub does not alter any `api_key` value, the
parameter list — and so the key's base component — is the original query
verbatim with parameter order preserved, and order-different
separator-free queries always produce distinct key bases; when the scrub
does fire, every `api_key` pair is removed and the sanitized values are
re-appended at the end, so the original parameter order is *not*
preserved there. -/
theorem claim_C9 (params : QueryParams) (pathname : String) (q₁ q₂ : QueryParams) :
    ((sanitizeUrlSearchParams params).2 = false →
        (sanitizeUrlSearchParams params).1 = params)
    ∧ ((∀ p ∈ params, p.1 = "api_key" → sanitizeApiKeyValue p.2 = p.2) →
        sanitizeUrlSearchParams params = (params, false))
    ∧ ((sanitizeUrlSearchParams params).2 = true →
        (sanitizeUrlSearchParams params).1 =
          params.filter (fun p => p.1 ≠ "api_key") ++
            (params.filter (fun p => p.1 = "api_key")).map
              (fun p => ("api_key", sanitizeApiKeyValue p.2)))
    ∧ ((∀ p ∈ q₁, sepFreePair p) → (∀ p ∈ q₂, sepFreePair p) → q₁ ≠ q₂ →
        buildCacheKeyBase pathname q₁ ≠ buildCacheKeyBase pathname q₂) := by
  have hdef : sanitizeUrlSearchParams params =
      if ((params.filter (fun p => p.1 = "api_key")).map Prod.snd).isEmpty then (params, false)
      else if ((params.filter (fun p => p.1 = "api_key")).map Prod.snd).map
          sanitizeApiKeyValue = (params.filter (fun p => p.1 = "api_key")).map Prod.snd then
        (params, false)
      else (params.filter (fun p => p.1 ≠ "api_key") ++
        (((params.filter (fun p => p.1 = "api_key")).map Prod.snd).map
          sanitizeApiKeyValue).map (fun v => ("api_key", v)), true) := rfl
  refine ⟨?_, ?_, ?_, ?_⟩
  · intro h
    rw [hdef] at h ⊢
    by_cases he : ((params.filter (fun p => p.1 = "api_key")).map Prod.snd).isEmpty
    · rw [if_pos he]
    · rw [if_neg he] at h ⊢
      by_cases hc : ((params.filter (fun p => p.1 = "api_key")).map Prod.snd).map
          sanitizeApiKeyValue = (params.filter (fun p => p.1 = "api_key")).map Prod.snd
      · rw [if_pos hc]
      · rw [if_neg hc] at h
        cases h
  · intro h
    have hc : ((params.filter (fun p => p.1 = "api_key")).map Prod.snd).map
        sanitizeApiKeyValue = (params.filter (fun p => p.1 = "api_key")).map Prod.snd := by
      rw [List.map_map]
      apply List.map_congr_left
      intro p hp
      have hkey : p.1 = "api_key" := by
        have := List.mem_filter.mp hp
        simpa using this.2
      exact h p (List.mem_filter.mp hp).1 hkey
    rw [hdef]
    by_cases he : ((params.filter (fun p => p.1 = "api_key")).map Prod.snd).isEmpty
    · rw [if_pos he]
    · rw [if_neg he, if_pos hc]
  · intro h
    rw [hdef] at h ⊢
    by_cases he : ((params.filter (fun p => p.1 = "api_key")).map Prod.snd).isEmpty
    · rw [if_pos he] at h
      cases h
    · rw [if_neg he] at h ⊢
      by_cases hc : ((params.filter (fun p => p.1 = "api_key")).map Prod.snd).map
          sanitizeApiKeyValue = (params.filter (fun p => p.1 = "api_key")).map Prod.snd
      · rw [if_pos hc] at h
        cases h
      · rw [if_neg hc]
        rw [List.map_map, List.map_map]
        rfl
  · intro hf₁ hf₂ hne heq
    have hd := congrArg String.data heq
    unfold buildCacheKeyBase at hd
    simp only [String.data_append] at hd
    have hsearch : (urlSearch q₁).data = (urlSearch q₂).data := List.append_cancel_left hd
    unfold urlSearch at hsearch
    by_cases he₁ : q₁.isEmpty <;> by_cases he₂ : q₂.isEmpty
    · exact hne (by rw [List.isEmpty_iff.mp he₁, List.isEmpty_iff.mp he₂])
    · rw [if_pos he₁, if_neg he₂] at hsearch
      have := congrArg List.length hsearch
      simp [String.data_append] at this
    · rw [if_neg he₁, if_pos he₂] at hsearch
      have := congrArg List.length hsearch
      simp [String.data_append] at this
    · rw [if_neg he₁, if_neg he₂] at hsearch
      simp only [String.data_append] at hsearch
      have hser : (serializeQuery q₁).data = (serializeQuery q₂).data :=
        List.append_cancel_left hsearch
      exact hne (serializeQuery_inj q₁ q₂ hf₁ hf₂
        (fun hnil => he₁ (by rw [hnil]; rfl)) (fun hnil => he₂ (by rw [hnil]; rfl))
        (String.ext hser))

/-- C9 witness: an untouched query keeps its order and content; a scrubbed
one moves `api_key` to the end; order-different clean queries give
distinct key bases. -/
theorem claim_C9_witness :
    (sanitizeUrlSearchParams [("a", "1"), ("b", "2")]).1 = [("a", "1"), ("b", "2")]
    ∧ sanitizeUrlSearchParams [("a", "1"), ("b", "2")] = ([("a", "1"), ("b", "2")], false)
    ∧ (sanitizeUrlSearchParams [("api_key", " x"), ("b", "2")]).1 =
        ([("api_key", " x"), ("b", "2")] : QueryParams).filter (fun p => p.1 ≠ "api_key") ++
          (([("api_key", " x"), ("b", "2")] : QueryParams).filter
            (fun p => p.1 = "api_key")).map (fun p => ("api_key", sanitizeApiKeyValue p.2))
    ∧ buildCacheKeyBase "/x" [("a", "1"), ("b", "2")] ≠
        buildCacheKeyBase "/x" [("b", "2"), ("a", "1")] :=
  ⟨(claim_C9 [("a", "1"), ("b", "2")] "/x" [] []).1 (by decide),
   (claim_C9 [("a", "1"), ("b", "2")] "/x" [] []).2.1 (by decide),
   (claim_C9 [("api_key", " x"), ("b", "2")] "/x" [] []).2.2.1 (by decide),
   (claim_C9 [] "/x" [("a", "1"), ("b", "2")] [("b", "2"), ("a", "1")]).2.2.2
     (by decide) (by decide) (by decide)⟩

/-! ### SHA-256 digest shape lemmas (for C8) -/

theorem sha256Round_length (ws st : List Nat) (i : Nat) :
    (sha256Round ws st i).length = 8 := rfl

theorem foldl_round_length (ws : List Nat) :
    ∀ (l : List Nat) (st : List Nat), l ≠ [] →
      (l.foldl (sha256Round ws) st).length = 8 := by
  intro l
  induction l with
  | nil => intro st h; exact absurd rfl h
  | cons i rest ih =>
    intro st _
    cases rest with
    | nil => exact sha256Round_length ws st i
    | cons j rest' => exact ih (sha256Round ws st i) (by simp)

theorem sha256Compress_length (hs block : List Nat) (h : hs.length = 8) :
    (sha256Compress hs block).length = 8 := by
  unfold sha256Compress
  rw [List.length_zipWith, h,
    foldl_round_length (sha256Schedule block) (List.range 64) hs (by decide)]
  omega

theorem sha256Digest_length (msg : List Nat) : (sha256Digest msg).length = 8 := by
  unfold sha256Digest
  generalize sha256Blocks (bytesToWordsBE (sha256Pad msg)) = blocks
  have : ∀ (bs : List (List Nat)) (hs : List Nat), hs.length = 8 →
      (bs.foldl sha256Compress hs).length = 8 := by
    intro bs
    induction bs with
    | nil => intro hs h; exact h
    | cons b bs ih =>
      intro hs h
      exact ih (sha256Compress hs b) (sha256Compress_length hs b h)
  exact this blocks sha256InitH rfl

theorem mem_hexChars_getD (i : Nat) : hexChars.getD i '0' ∈ hexChars := by
  by_cases h : i < hexChars.length
  · rw [List.getD_eq_getElem?_getD, List.getElem?_eq_getElem h]
    exact List.getElem_mem h
  · rw [List.getD_eq_getElem?_getD, List.getElem?_eq_none (by omega)]
    decide

theorem mem_byteToHex (b : Nat) (c : Char) (h : c ∈ byteToHex b) : c ∈ hexChars := by
  unfold byteToHex at h
  rcases List.mem_cons.mp h with h' | h'
  · rw [h']
    exact mem_hexChars_getD _
  · rcases List.mem_cons.mp h' with h'' | h''
    · rw [h'']
      exact mem_hexChars_getD _
    · simp at h''

theorem mem_wordToHex (w : Nat) (c : Char) (h : c ∈ wordToHex w) : c ∈ hexChars := by
  unfold wordToHex at h
  simp only [List.mem_append] at h
  rcases h with ((h | h) | h) | h <;> exact mem_byteToHex _ _ h

theorem mem_sha256HexChars (msg : List Nat) (c : Char) (h : c ∈ sha256HexChars msg) :
    c ∈ hexChars := by
  unfold sha256HexChars at h
  generalize hd : sha256Digest msg = ws at h
  clear hd
  induction ws with
  | nil => simp at h
  | cons w ws ih =>
    simp only [List.foldr_cons, List.mem_append] at h
    rcases h with h | h
    · exact mem_wordToHex w c h
    · exact ih h

theorem sha256HexChars_length (msg : List Nat) : (sha256HexChars msg).length = 64 := by
  unfold sha256HexChars
  have hword : ∀ w : Nat, (wordToHex w).length = 8 := by
    intro w
    unfold wordToHex byteToHex
    simp
  have : ∀ ws : List Nat, (ws.foldr (fun wd acc => wordToHex wd ++ acc) []).length =
      8 * ws.length := by
    intro ws
    induction ws with
    | nil => simp
    | cons w ws ih =>
      simp only [List.foldr_cons, List.length_append, List.length_cons, hword, ih]
      ring
  rw [this, sha256Digest_length]

/-- FIPS 180-4 test vector: the embedding agrees with SHA-256 on `"abc"`. -/
theorem sha256_test_vector_abc :
    sha256HexChars (stringUtf8Bytes "abc") =
      "ba7816bf8f01cfea414140de5dae2223b00361a396177a9cb410ff61f20015ad".data := by
  decide

/-- Test vector: the embedding agrees with SHA-256 on the empty message. -/
theorem sha256_test_vector_empty :
    sha256HexChars (stringUtf8Bytes "") =
      "e3b0c44298fc1c149afbf4c8996fb92427ae41e4649b934ca495991b7852b855".data := by
  decide

theorem hashHeader_length (v : String) : (hashHeader v).length = 16 := by
  show ((sha256HexChars (stringUtf8Bytes v)).take 16).length = 16
  rw [List.length_take, sha256HexChars_length]
  omega

theorem hashHeader_chars (v : String) (c : Char) (h : c ∈ (hashHeader v).data) :
    c ∈ hexChars := by
  exact mem_sha256HexChars _ c (List.mem_of_mem_take h)

/-- Index of a hex character in the hex alphabet, as `Fin 16`. -/
def hexVal (c : Char) : Fin 16 := ⟨hexChars.indexOf c % 16, Nat.mod_lt _ (by omega)⟩

theorem hexVal_inj : ∀ c ∈ hexChars, ∀ d ∈ hexChars, hexVal c = hexVal d → c = d := by
  decide

/-- A 16-character hex string read as a function into a finite type. -/
def hashEncode (s : String) : Fin 16 → Fin 16 := fun i => hexVal (s.data.getD i '0')

theorem hashEncode_inj (s₁ s₂ : String)
    (hl₁ : s₁.length = 16) (hl₂ : s₂.length = 16)
    (hc₁ : ∀ c ∈ s₁.data, c ∈ hexChars) (hc₂ : ∀ c ∈ s₂.data, c ∈ hexChars)
    (h : hashEncode s₁ = hashEncode s₂) : s₁ = s₂ := by
  apply String.ext
  apply List.ext_getElem (by
    show s₁.data.length = s₂.data.length
    rw [show s₁.data.length = s₁.length from rfl, show s₂.data.length = s₂.length from rfl,
      hl₁, hl₂])
  intro i h₁ h₂
  have hi : i < 16 := by
    have : s₁.data.length = s₁.length := rfl
    omega
  have happ := congrFun h ⟨i, hi⟩
  unfold hashEncode at happ
  rw [List.getD_eq_getElem?_getD, List.getElem?_eq_getElem h₁,
    List.getD_eq_getElem?_getD, List.getElem?_eq_getElem h₂] at happ
  exact hexVal_inj _ (hc₁ _ (List.getElem_mem h₁)) _ (hc₂ _ (List.getElem_mem h₂)) happ

/-- The truncated hex digest is not injective: it maps infinitely many
credentials into the finite set of 16-character hex strings. -/
theorem hashHeader_not_injective :
    ∃ a b : String, a ≠ b ∧ a ≠ "" ∧ b ≠ "" ∧ hashHeader a = hashHeader b := by
  obtain ⟨m, n, hmn, heq⟩ := Finite.exists_ne_map_eq_of_infinite
    (fun n : ℕ => hashEncode (hashHeader ⟨List.replicate (n + 1) 'a'⟩))
  refine ⟨⟨List.replicate (m + 1) 'a'⟩, ⟨List.replicate (n + 1) 'a'⟩, ?_, ?_, ?_, ?_⟩
  · intro h
    apply hmn
    have := congrArg (fun s : String => s.data.length) h
    simpa using this
  · intro h
    have := congrArg (fun s : String => s.data.length) h
    simp [show ("" : String).data = [] from rfl] at this
  · intro h
    have := congrArg (fun s : String => s.data.length) h
    simp [show ("" : String).data = [] from rfl] at this
  · exact hashEncode_inj _ _ (hashHeader_length _) (hashHeader_length _)
      (hashHeader_chars _) (hashHeader_chars _) heq

/-! ### Claim C8 — cache-key credential fingerprint -/

/-- C8 counterexample: it is *not* the case that any two distinct
(nonempty) credentials always map to distinct keys: the key embeds only
the first 16 hex characters (64 bits) of the SHA-256 digest, and a
function from the infinitely many credential strings into the finitely
many 16-character hex strings cannot be injective, so two distinct
credentials with the same key exist. -/
theorem claim_C8_counterexample :
    ¬ ∀ a b : String, a ≠ "" → b ≠ "" → a ≠ b →
        buildCacheKey "/x" (some a) none ≠ buildCacheKey "/x" (some b) none := by
  intro H
  obtain ⟨a, b, hne, ha, hb, hh⟩ := hashHeader_not_injective
  apply H a b ha hb hne
  unfold buildCacheKey
  simp only [ha, hb, ne_eq, not_false_iff, if_true, hh]

/-- C8 (amended): `buildCacheKey` is a pure total function; when a
credential header is present (nonempty) the key appends `auth=` followed
by the fixed-length (16 hex characters) truncated SHA-256 digest of the
credential — never the raw value; equal credentials give equal keys; and
two requests differing only in the credential map to distinct keys
*whenever their truncated digests differ* (the 64-bit truncation admits
collisions in principle, so "always distinct" is unprovable — see the
counterexample). -/
theorem claim_C8 (base auth₁ auth₂ : String) (lang : Option String) :
    (hashHeader auth₁).length = 16
    ∧ (∀ c ∈ (hashHeader auth₁).data, c ∈ hexChars)
    ∧ (auth₁ ≠ "" → buildCacheKey base (some auth₁) none =
        base ++ "|" ++ ("auth=" ++ hashHeader auth₁))
    ∧ (∀ l, auth₁ ≠ "" → l ≠ "" → buildCacheKey base (some auth₁) (some l) =
        base ++ "|" ++ ("auth=" ++ hashHeader auth₁) ++ "|" ++ ("lang=" ++ l))
    ∧ (auth₁ = auth₂ → buildCacheKey base (some auth₁) lang =
        buildCacheKey base (some auth₂) lang)
    ∧ (auth₁ ≠ "" → auth₂ ≠ "" → hashHeader auth₁ ≠ hashHeader auth₂ →
        buildCacheKey base (some auth₁) lang ≠ buildCacheKey base (some auth₂) lang) := by
  have keyNone : ∀ auth : String, auth ≠ "" → buildCacheKey base (some auth) none =
      base ++ "|" ++ ("auth=" ++ hashHeader auth) := by
    intro auth h
    unfold buildCacheKey
    simp only [h, ne_eq, not_false_iff, if_true]
    rfl
  have keySome : ∀ auth l : String, auth ≠ "" → l ≠ "" →
      buildCacheKey base (some auth) (some l) =
        base ++ "|" ++ ("auth=" ++ hashHeader auth) ++ "|" ++ ("lang=" ++ l) := by
    intro auth l h hl
    unfold buildCacheKey
    simp only [h, hl, ne_eq, not_false_iff, if_true]
    rfl
  have keySomeEmpty : ∀ auth : String, auth ≠ "" →
      buildCacheKey base (some auth) (some "") =
        base ++ "|" ++ ("auth=" ++ hashHeader auth) := by
    intro auth h
    unfold buildCacheKey
    simp only [h, ne_eq, not_false_iff, if_true, not_true, ite_false]
    rfl
  refine ⟨hashHeader_length auth₁, hashHeader_chars auth₁, keyNone auth₁, keySome auth₁,
    ?_, ?_⟩
  · intro h
    rw [h]
  · intro h₁ h₂ hh heq
    apply hh
    apply String.ext
    show (hashHeader auth₁).data = (hashHeader auth₂).data
    cases lang with
    | none =>
      rw [keyNone auth₁ h₁, keyNone auth₂ h₂] at heq
      have hd := congrArg String.data heq
      simp only [String.data_append, List.append_assoc] at hd
      exact List.append_cancel_left (List.append_cancel_left (List.append_cancel_left hd))
    | some l =>
      by_cases hl : l = ""
      · subst hl
        rw [keySomeEmpty auth₁ h₁, keySomeEmpty auth₂ h₂] at heq
        have hd := congrArg String.data heq
        simp only [String.data_append, List.append_assoc] at hd
        exact List.append_cancel_left (List.append_cancel_left (List.append_cancel_left hd))
      · rw [keySome auth₁ l h₁ hl, keySome auth₂ l h₂ hl] at heq
        have hd := congrArg String.data heq
        simp only [String.data_append, List.append_assoc] at hd
        have h₃ := List.append_cancel_left (List.append_cancel_left
          (List.append_cancel_left hd))
        exact List.append_cancel_right h₃

/-- C8 witness: a concrete credential's fingerprint has length 16, the key
embeds it after `auth=`, and two concrete credentials with different
truncated digests give distinct keys. -/
theorem claim_C8_witness :
    (hashHeader "Bearer tok-1").length = 16
    ∧ buildCacheKey "/3/find" (some "Bearer tok-1") none =
        "/3/find" ++ "|" ++ ("auth=" ++ hashHeader "Bearer tok-1")
    ∧ buildCacheKey "/3/find" (some "Bearer tok-1") none ≠
        buildCacheKey "/3/find" (some "Bearer tok-2") none :=
  ⟨(claim_C8 "/3/find" "Bearer tok-1" "x" none).1,
   (claim_C8 "/3/find" "Bearer tok-1" "x" none).2.2.1 (by decide),
   (claim_C8 "/3/find" "Bearer tok-1" "Bearer tok-2" none).2.2.2.2.2
     (by decide) (by decide) (by decide)⟩

end TmdbProxy
